import Mathlib

/-! Elevator bank: the per-car dispatch loop.

A shallow embedding of `elevator.h` / `elevator.cpp`.

* `float` values (`m_Position`, `m_TimePerFloor`, `m_TimeToAction`) and clock
  readings are exact rationals; the clock counts seconds since the epoch.
* `std::map<int, int>` is its entry list in ascending key order; an iterator is
  an index into that list and `end()` is the length of the list.
* `std::queue<Event>` is a list whose head is `front()`.
* An operation the C++ standard leaves undefined (reading `front()` of an empty
  queue, incrementing or erasing a past-the-end iterator) yields `none`.
* `PrintLog` only writes a line to standard output; it changes neither a car nor
  the shared channel and is left out.
-/

namespace Elevator

/-- Call event of `elevator.h`: one passenger going from `floorFrom` to `floorTo`. -/
structure Event where
  floorFrom : Int
  floorTo : Int
deriving DecidableEq, Repr

/-- Number of floors of the building (`Elevator::FLOORS_NUMBER`). -/
def FLOORS_NUMBER : Int := 12

/-- Waiting time before the descent to floor 1 (`Impl::WAIT_TIME`). -/
def WAIT_TIME : ℚ := 5

/-- Direction of travel (`enum class Direction`). -/
inductive Direction where
  | None
  | Up
  | Down
deriving DecidableEq, Repr

/-! ## `std::map<int, int>` -/

/-- Entries of a `std::map<int, int>` in ascending key order. -/
abbrev Floors := List (Int × Int)

/-- Keys of the map, in iteration order. -/
def mapKeys (m : Floors) : List Int := m.map Prod.fst

/-- Representation invariant of `std::map`: strictly ascending keys. -/
def mapSorted (m : Floors) : Prop := (mapKeys m).Pairwise (fun a b => a < b)

instance (m : Floors) : Decidable (mapSorted m) := by
  unfold mapSorted; infer_instance

/-- Value stored under key `k` (`find`), if the key is present. -/
def mapFind (k : Int) : Floors → Option Int
  | [] => none
  | (k1, v) :: rest => if k = k1 then some v else mapFind k rest

/-- Effect of `m[k]` on the map: a missing key is inserted, at its place in the
key order, with the value-initialised value 0. -/
def mapSubscript (k : Int) : Floors → Floors
  | [] => [(k, 0)]
  | (k1, v) :: rest =>
    if k < k1 then (k, 0) :: (k1, v) :: rest
    else if k = k1 then (k1, v) :: rest
    else (k1, v) :: mapSubscript k rest

/-- Write through the reference returned by `m[k]`: the value under `k`
    becomes `f` of it. -/
def mapAssign (k : Int) (f : Int → Int) : Floors → Floors
  | [] => []
  | (k1, v) :: rest =>
    if k = k1 then (k1, f v) :: rest else (k1, v) :: mapAssign k f rest

/-- Statement `m[k]++`. -/
def mapIncr (k : Int) (m : Floors) : Floors :=
  mapAssign k (fun v => v + 1) (mapSubscript k m)

/-- Statement `m[k]--`. -/
def mapDecr (k : Int) (m : Floors) : Floors :=
  mapAssign k (fun v => v - 1) (mapSubscript k m)

/-- Iterator `begin()`. -/
def mapBegin (_m : Floors) : Nat := 0

/-- Iterator `end()`, one past the last entry. -/
def mapEnd (m : Floors) : Nat := m.length

/-- Dereference of an iterator; `end()` cannot be dereferenced. -/
def iterDeref (m : Floors) (i : Nat) : Option (Int × Int) := m.get? i

/-- Pre-increment of an iterator. Only an iterator that points at an entry may
be incremented: `++end()` is undefined. -/
def iterIncr (m : Floors) (i : Nat) : Option Nat :=
  if i < m.length then some (i + 1) else none

/-- Base of the reverse iterator `rbegin()`: `reverse_iterator(end())`, whose
`base()` is `end()`. -/
def rbeginBase (m : Floors) : Nat := mapEnd m

/-- Dereference of a reverse iterator with base `b`: the entry just before `b`. -/
def revDeref (m : Floors) (b : Nat) : Option (Int × Int) :=
  if 0 < b then m.get? (b - 1) else none

/-- Call `erase(it)`: removes the entry `it` points at; `it` must point at an
entry of the map. -/
def mapErase (m : Floors) (i : Nat) : Option Floors :=
  if i < m.length then some (m.eraseIdx i) else none

/-! ## The car (`Elevator::Impl`) -/

/-- Non-static data members of `Elevator::Impl`. -/
structure Impl where
  m_Number : Int
  m_TimePerFloor : ℚ
  m_Capacity : Int
  m_Passangers : Int
  m_Position : ℚ
  m_Direction : Direction
  m_Time : ℚ
  m_TimeToAction : ℚ
  m_HasToMoveDown : Bool
  m_Floors : Floors
deriving DecidableEq, Repr

/-- Constructor `Impl::Impl(number, timePerFloor, capacity)`. `m_Time` and
`m_Floors` are default-constructed: the epoch and the empty map. -/
def Impl.Impl (number : Int) (timePerFloor : ℚ) (capacity : Int) : Impl :=
  { m_Number := number
    m_TimePerFloor := timePerFloor
    m_Capacity := capacity
    m_Passangers := 0
    m_Position := 1
    m_Direction := Direction.None
    m_Time := 0
    m_TimeToAction := 0
    m_HasToMoveDown := false
    m_Floors := [] }

/-- Method `UpdateCurrentPosition`, with `now` the reading of the system clock. -/
def UpdateCurrentPosition (now : ℚ) (c : Impl) : Impl :=
  match c.m_Direction with
  | Direction.Up =>
    { c with m_Position := c.m_Position + (now - c.m_Time) / c.m_TimePerFloor
             m_Time := now }
  | Direction.Down =>
    { c with m_Position := c.m_Position - (now - c.m_Time) / c.m_TimePerFloor
             m_Time := now }
  | Direction.None => { c with m_Time := now }

/-- Method `CheckForPickUp`. -/
def CheckForPickUp (c : Impl) (event : Event) : Bool :=
  match c.m_Direction with
  | Direction.Up => decide (c.m_Position < (event.floorFrom : ℚ))
  | Direction.Down => decide (c.m_Position > (event.floorFrom : ℚ))
  | Direction.None => true

/-- Method `UpdateTimeToAction`. -/
def UpdateTimeToAction (c : Impl) : Impl :=
  if c.m_Floors.isEmpty then c
  else
    match c.m_Direction with
    | Direction.Up =>
      match c.m_Floors.head? with
      | some (k, _) =>
        { c with m_TimeToAction := ((k : ℚ) - c.m_Position) * c.m_TimePerFloor }
      | none => c
    | Direction.Down =>
      match c.m_Floors.getLast? with
      | some (k, _) =>
        { c with m_TimeToAction := (c.m_Position - (k : ℚ)) * c.m_TimePerFloor }
      | none => c
    | Direction.None => c

/-- Method `ProcessEvent`. -/
def ProcessEvent (event : Event) (c : Impl) : Impl :=
  let c1 := { c with m_HasToMoveDown := false }
  let c2 := { c1 with m_Floors := mapIncr event.floorFrom c1.m_Floors }
  let c3 := { c2 with m_Floors := mapDecr event.floorTo c2.m_Floors }
  let c4 :=
    match c3.m_Direction with
    | Direction.None =>
      if c3.m_Position < (event.floorFrom : ℚ) then
        { c3 with m_Direction := Direction.Up }
      else
        { c3 with m_Direction := Direction.Down }
    | _ => c3
  UpdateTimeToAction c4

/-- Upward stop of `PerformAction`: `iter = begin()`, the position and the
passenger count are taken from `*iter`, then `erase(iter)`. -/
def stopUp (c : Impl) : Option Impl :=
  let iter := mapBegin c.m_Floors
  (iterDeref c.m_Floors iter).bind fun entry =>
  (mapErase c.m_Floors iter).map fun fl =>
    { c with m_Position := (entry.1 : ℚ)
             m_Passangers := c.m_Passangers + entry.2
             m_Floors := fl }

/-- Downward stop of `PerformAction`: `iter = rbegin()`, the position and the
passenger count are taken from `*iter`, then `erase(++iter.base())`. The
argument of `erase` is the pre-increment of the temporary `iter.base()`. -/
def stopDown (c : Impl) : Option Impl :=
  let base := rbeginBase c.m_Floors
  (revDeref c.m_Floors base).bind fun entry =>
  (iterIncr c.m_Floors base).bind fun it =>
  (mapErase c.m_Floors it).map fun fl =>
    { c with m_Position := (entry.1 : ℚ)
             m_Passangers := c.m_Passangers + entry.2
             m_Floors := fl }

/-- Tail of `PerformAction` after the stop: the direction is reset when the
plan is empty, then `UpdateTimeToAction`. -/
def afterStop (c : Impl) : Impl :=
  UpdateTimeToAction
    (if c.m_Floors.isEmpty then { c with m_Direction := Direction.None } else c)

/-- Method `PerformAction`. -/
def PerformAction (c : Impl) : Option Impl :=
  if c.m_Floors.isEmpty then some c
  else
    (match c.m_Direction with
     | Direction.Up => stopUp c
     | Direction.Down => stopDown c
     | Direction.None => some c).map afterStop

/-! ## Sequences of operations on one car -/

/-- Operations the control loop performs on a car. -/
inductive Op where
  | processEvent (event : Event)
  | performAction
  | idleTimer
  | updatePosition (now : ℚ)
deriving DecidableEq, Repr

/-- Arming of the idle timer in `Start`: `m_HasToMoveDown = true` and
`m_TimeToAction = WAIT_TIME`. -/
def armIdleTimer (c : Impl) : Impl :=
  { c with m_HasToMoveDown := true, m_TimeToAction := WAIT_TIME }

/-- Effect of one operation. -/
def applyOp : Op → Impl → Option Impl
  | Op.processEvent event, c => some (ProcessEvent event c)
  | Op.performAction, c => PerformAction c
  | Op.idleTimer, c => some (armIdleTimer c)
  | Op.updatePosition now, c => some (UpdateCurrentPosition now c)

/-- Effect of a sequence of operations, left to right. -/
def applyOps : List Op → Impl → Option Impl
  | [], c => some c
  | op :: ops, c => (applyOp op c).bind (applyOps ops)

/-- Repeated `PerformAction`, `n` times in a row. -/
def performN : Nat → Impl → Option Impl
  | 0, c => some c
  | n + 1, c => (PerformAction c).bind (performN n)

/-! ## The shared channel and the control loop (`Start`) -/

/-- Static members `m_Events` and `m_StopFlag`, guarded by `m_EventsMutex`. -/
structure Shared where
  m_Events : List Event
  m_StopFlag : Bool
deriving DecidableEq, Repr

/-- Static method `PushEvent`. -/
def PushEvent (event : Event) (sh : Shared) : Shared :=
  { sh with m_Events := sh.m_Events ++ [event] }

/-- Static method `StopAll`. -/
def StopAll (sh : Shared) : Shared :=
  { sh with m_StopFlag := true }

/-- Record of one `ProcessEvent(m_Events.front()); m_Events.pop();`: the
direction and position of the car when the request was taken, and the request. -/
structure Admission where
  direction : Direction
  position : ℚ
  event : Event
deriving DecidableEq, Repr

/-- One car thread inside `Start` together with the channel. `deadline` is the
absolute time at which the pending `wait_for` times out, `returned` tells
whether `Start` has returned, `admitted` records the requests the car popped. -/
structure Loop where
  car : Impl
  chan : Shared
  deadline : ℚ
  returned : Bool
  admitted : List Admission
deriving DecidableEq, Repr

/-- Lambda `checkCondition` of `Start`, evaluated at clock reading `now`. -/
def checkCondition (now : ℚ) (sh : Shared) (c : Impl) : Bool × Impl :=
  match sh.m_Events with
  | [] => (sh.m_StopFlag, c)
  | event :: _ =>
    if c.m_Passangers = c.m_Capacity then (sh.m_StopFlag, c)
    else
      let c1 := UpdateCurrentPosition now c
      (CheckForPickUp c1 event || sh.m_StopFlag, c1)

/-- Statements `ProcessEvent(m_Events.front()); m_Events.pop();`. -/
def admitFront (st : Loop) : Option Loop :=
  match st.chan.m_Events with
  | [] => none
  | event :: rest =>
    some { st with
      car := ProcessEvent event st.car
      chan := { st.chan with m_Events := rest }
      admitted := st.admitted ++ [⟨st.car.m_Direction, st.car.m_Position, event⟩] }

/-- Loop `while (checkCondition()) { ProcessEvent(front); pop(); }`, with
`fuel` bounding the number of evaluations of the condition. -/
def drain (now : ℚ) : Nat → Loop → Option Loop
  | 0, _ => none
  | fuel + 1, st =>
    let r := checkCondition now st.chan st.car
    if r.1 then (admitFront { st with car := r.2 }).bind (drain now fuel)
    else some { st with car := r.2 }

/-- Inner `if (m_Floors.empty())` of the timeout branch: the synthetic request
`{1, 0}` when the idle timer has run out, otherwise the idle timer is armed. -/
def idleStep (c : Impl) : Impl :=
  if c.m_HasToMoveDown then ProcessEvent ⟨1, 0⟩ c else armIdleTimer c

/-- The `else` branch of `Start`, taken when `wait_for` returns false. -/
def timeoutBranch (now : ℚ) (st : Loop) : Option Loop :=
  (PerformAction st.car).bind fun c1 =>
    if c1.m_Floors.isEmpty then
      (drain now (st.chan.m_Events.length + 1) { st with car := c1 }).map fun st2 =>
        if st2.car.m_Floors.isEmpty then { st2 with car := idleStep st2.car } else st2
    else some { st with car := c1 }

/-- Entry into the next `wait_for(lock, m_TimeToAction, checkCondition)` at
time `now`. -/
def newWait (now : ℚ) (st : Loop) : Loop :=
  { st with deadline := now + st.car.m_TimeToAction }

/-- One wake-up of the thread inside `wait_for` at clock reading `now`, and the
loop body that follows when the wait ends. The predicate is evaluated; if it
holds the wait returns true; if it does not and the deadline has passed the
wait returns false; otherwise the thread keeps waiting. All code run while the
lock is held reads the same clock value. The first evaluation of the predicate
on entry to `wait_for` is a wake-up at the time the wait starts. -/
def wake (now : ℚ) (st : Loop) : Option Loop :=
  if st.returned then some st
  else
    let r := checkCondition now st.chan st.car
    let st1 := { st with car := r.2 }
    if r.1 then
      if !st1.chan.m_StopFlag then (admitFront st1).map (newWait now)
      else some { st1 with returned := true }
    else if now < st.deadline then some st1
    else (timeoutBranch now st1).map (newWait now)

/-- What happens next: a producer pushes a request, `StopAll` is called, or
the car thread wakes up at some clock reading. -/
inductive Input where
  | push (event : Event)
  | stopAll
  | wake (now : ℚ)
deriving DecidableEq, Repr

/-- Effect of one input. -/
def step : Input → Loop → Option Loop
  | Input.push event, st => some { st with chan := PushEvent event st.chan }
  | Input.stopAll, st => some { st with chan := StopAll st.chan }
  | Input.wake now, st => wake now st

/-- Effect of a sequence of inputs, left to right. -/
def run : List Input → Loop → Option Loop
  | [], st => some st
  | i :: rest, st => (step i st).bind (run rest)

/-- Call of `Start` at time `t0` on car `c` with channel `sh`. -/
def Start (t0 : ℚ) (c : Impl) (sh : Shared) : Loop :=
  { car := c, chan := sh, deadline := t0 + c.m_TimeToAction, returned := false,
    admitted := [] }

/-- A request the producer of `main.cpp` can submit: both floors within
`1..FLOORS_NUMBER` and different from each other. -/
def validEvent (event : Event) : Bool :=
  decide (1 ≤ event.floorFrom) && decide (event.floorFrom ≤ FLOORS_NUMBER) &&
  decide (1 ≤ event.floorTo) && decide (event.floorTo ≤ FLOORS_NUMBER) &&
  decide (event.floorFrom ≠ event.floorTo)

/-- Every pushed request of an input sequence is one the producer can submit. -/
def validInputs (inputs : List Input) : Bool :=
  inputs.all fun i =>
    match i with
    | Input.push event => validEvent event
    | _ => true

/-! ## Predicates and concrete states used by the statements -/

/-- The direction/plan invariant: the car is idle exactly when it has no stop. -/
def dirInv (c : Impl) : Prop :=
  c.m_Direction = Direction.None ↔ c.m_Floors = []

instance (c : Impl) : Decidable (dirInv c) := by
  unfold dirInv; infer_instance

/-- State of the car used to instantiate the direction/plan invariant. -/
def afterFirstStop : Impl :=
  { m_Number := 1, m_TimePerFloor := 1, m_Capacity := 1, m_Passangers := 1,
    m_Position := 3, m_Direction := Direction.Up, m_Time := 1, m_TimeToAction := 2,
    m_HasToMoveDown := false, m_Floors := [(5, -1)] }

/-- State of a fresh car with travel time 3/2 after it admitted `{3, 5}`. -/
def afterAdmission : Impl :=
  { m_Number := 1, m_TimePerFloor := 3 / 2, m_Capacity := 1, m_Passangers := 0,
    m_Position := 1, m_Direction := Direction.Up, m_Time := 0, m_TimeToAction := 3,
    m_HasToMoveDown := false, m_Floors := [(3, 1), (5, -1)] }

/-- An admission that respects the direction of travel: a car moving up did
not take a request from a floor below its position, a car moving down none
from a floor above it. -/
def goodAdmission (a : Admission) : Prop :=
  (a.direction = Direction.Up → ¬ ((a.event.floorFrom : ℚ) < a.position)) ∧
  (a.direction = Direction.Down → ¬ ((a.event.floorFrom : ℚ) > a.position))

instance (a : Admission) : Decidable (goodAdmission a) := by
  unfold goodAdmission; infer_instance

/-- Run of the second scenario: a car with room for five admits `{2, 8}` at
time 0, stops at floor 2 at time 1, and at time 9/2 finds `{3, 6}` at the head
of the queue. -/
def passingInputs : List Input :=
  [Input.push ⟨2, 8⟩, Input.wake 0, Input.wake 0, Input.wake 1, Input.wake 1,
   Input.push ⟨3, 6⟩, Input.wake (9 / 2)]

/-- State at the end of `passingInputs`: the car is past floor 5 moving up and
`{3, 6}` is still in the queue. -/
def passingState : Loop :=
  { car :=
      { m_Number := 1, m_TimePerFloor := 1, m_Capacity := 5, m_Passangers := 1,
        m_Position := 13 / 2, m_Direction := Direction.Up, m_Time := 9 / 2,
        m_TimeToAction := 6, m_HasToMoveDown := false, m_Floors := [(8, -1)] }
    chan := { m_Events := [⟨3, 6⟩], m_StopFlag := false }
    deadline := 7
    returned := false
    admitted := [⟨Direction.None, 1, ⟨2, 8⟩⟩] }

/-- State of an idle car right after it admitted `{3, 6}` at time 0. -/
def idleAdmitState : Loop :=
  { car :=
      { m_Number := 2, m_TimePerFloor := 1, m_Capacity := 5, m_Passangers := 0,
        m_Position := 1, m_Direction := Direction.Up, m_Time := 0,
        m_TimeToAction := 2, m_HasToMoveDown := false, m_Floors := [(3, 1), (6, -1)] }
    chan := { m_Events := [], m_StopFlag := false }
    deadline := 2
    returned := false
    admitted := [⟨Direction.None, 1, ⟨3, 6⟩⟩] }

/-- Run in which a car with room for one passenger admits `{3, 5}` at time 0
and `{4, 6}` at time 1/2, then stops at floor 3 at time 2 and at floor 4 at
time 3. -/
def overloadInputs : List Input :=
  [Input.push ⟨3, 5⟩, Input.wake 0, Input.wake 0, Input.push ⟨4, 6⟩,
   Input.wake (1 / 2), Input.wake (1 / 2), Input.wake 2, Input.wake 2, Input.wake 3]

/-- Run in which a fresh car admits `{3, 2}` at time 0 and stops at floor 2 at
time 1. -/
def underflowInputs : List Input :=
  [Input.push ⟨3, 2⟩, Input.wake 0, Input.wake 0, Input.wake 1]

/-- Run that leaves a car idle at floor 5 and then hands it `{3, 2}`: the car
serves `{3, 5}` with stops at times 2 and 4, and admits `{3, 2}` at time 9/2. -/
def descendInputs : List Input :=
  [Input.push ⟨3, 5⟩, Input.wake 0, Input.wake 0, Input.wake 2, Input.wake 2,
   Input.wake 4, Input.wake 4, Input.push ⟨3, 2⟩, Input.wake (9 / 2),
   Input.wake (9 / 2)]

/-- Car at the end of `descendInputs`: at floor 5, moving down, with stops at
floors 3 and 2. -/
def descending : Impl :=
  { m_Number := 1, m_TimePerFloor := 1, m_Capacity := 5, m_Passangers := 0,
    m_Position := 5, m_Direction := Direction.Down, m_Time := 9 / 2,
    m_TimeToAction := 2, m_HasToMoveDown := false, m_Floors := [(2, -1), (3, 1)] }

/-- Loop state in which `StopAll` has been called while `{3, 5}` waits in the
queue of a fresh car with room for five. -/
def stoppedWithRequest : Loop :=
  Start 0 (Impl.Impl 1 1 5) ⟨[⟨3, 5⟩], true⟩

/-- The loop state `passingState` after `StopAll`. -/
def passingStopped : Loop :=
  { passingState with chan := StopAll passingState.chan }

/-- Run up to the stop at floor 2 of the second scenario: `{2, 8}` is admitted
at time 0 and the stop at floor 2 falls due at time 1. -/
def stopInputs : List Input :=
  [Input.push ⟨2, 8⟩, Input.wake 0, Input.wake 0, Input.wake 1, Input.wake 1]

/-- Run of an idle fresh car up to the synthetic request: the idle timer is
armed at time 0 and runs out at time 5. -/
def lobbyInputs : List Input :=
  [Input.wake 0, Input.wake 0, Input.wake 5]

/-- Run that leaves a car idle at floor 5 (it serves `{3, 5}` with stops at
times 2 and 4, which arms the idle timer) up to the synthetic request at time 9. -/
def lobbyFromFiveInputs : List Input :=
  [Input.push ⟨3, 5⟩, Input.wake 0, Input.wake 0, Input.wake 2, Input.wake 2,
   Input.wake 4, Input.wake 4, Input.wake 9]

/-- Run in which a car left idle at floor 5 admits `{3, 7}` at time 9/2. -/
def behindInputs : List Input :=
  [Input.push ⟨3, 5⟩, Input.wake 0, Input.wake 0, Input.wake 2, Input.wake 2,
   Input.wake 4, Input.wake 4, Input.push ⟨3, 7⟩, Input.wake (9 / 2)]

/-- Loop state of a car that has just reached floor 5 with an empty queue: the
plan holds the last stop, which falls due at time 4. -/
def lastStopDue : Loop :=
  { car :=
      { m_Number := 1, m_TimePerFloor := 1, m_Capacity := 5, m_Passangers := 1,
        m_Position := 3, m_Direction := Direction.Up, m_Time := 0,
        m_TimeToAction := 2, m_HasToMoveDown := false, m_Floors := [(5, -1)] }
    chan := { m_Events := [], m_StopFlag := false }
    deadline := 4
    returned := false
    admitted := [⟨Direction.None, 1, ⟨3, 5⟩⟩] }

/-- The car of `lastStopDue` after its stop at floor 5. -/
def arrivedAtFive : Impl :=
  { m_Number := 1, m_TimePerFloor := 1, m_Capacity := 5, m_Passangers := 0,
    m_Position := 5, m_Direction := Direction.None, m_Time := 0,
    m_TimeToAction := 2, m_HasToMoveDown := false, m_Floors := [] }

/-- Run in which a fresh car, parked at floor 1, admits `{1, 4}` at time 0. -/
def sameFloorInputs : List Input :=
  [Input.push ⟨1, 4⟩, Input.wake 0]

/-- Sum of the net deltas of the plan. -/
def planSum (m : Floors) : Int := (m.map Prod.snd).sum

/-- Loop state of a fresh car that finds `{3, 6}` in the queue. -/
def requestWaiting : Loop :=
  Start 0 (Impl.Impl 2 1 5) ⟨[⟨3, 6⟩], false⟩

/-! ## Several cars on one channel -/

/-- The part of `Loop` that belongs to one car thread. -/
structure Thread where
  car : Impl
  deadline : ℚ
  returned : Bool
  admitted : List Admission
deriving DecidableEq, Repr

/-- A car thread seen together with the channel. -/
def Thread.withChannel (t : Thread) (sh : Shared) : Loop :=
  { car := t.car, chan := sh, deadline := t.deadline, returned := t.returned,
    admitted := t.admitted }

/-- The car thread of a loop state. -/
def Loop.thread (st : Loop) : Thread :=
  { car := st.car, deadline := st.deadline, returned := st.returned,
    admitted := st.admitted }

/-- Car threads that share the static channel. Every access to the channel is
made with `m_EventsMutex` held, so the threads interleave step by step.
`pushed` records the initial queue and every request given to `PushEvent`. -/
structure Bank where
  threads : List Thread
  chan : Shared
  pushed : List Event
deriving DecidableEq, Repr

/-- What happens next in the bank: a producer pushes a request, `StopAll` is
called, or car thread `i` wakes up at some clock reading. -/
inductive BankInput where
  | push (event : Event)
  | stopAll
  | wake (i : Nat) (now : ℚ)
deriving DecidableEq, Repr

/-- Effect of one input on the bank. A wake-up of a thread that does not exist
changes nothing. -/
def bankStep : BankInput → Bank → Option Bank
  | BankInput.push event, b =>
    some { b with chan := PushEvent event b.chan, pushed := b.pushed ++ [event] }
  | BankInput.stopAll, b => some { b with chan := StopAll b.chan }
  | BankInput.wake i now, b =>
    match b.threads.get? i with
    | none => some b
    | some t =>
      (wake now (t.withChannel b.chan)).map fun st =>
        { b with threads := b.threads.set i st.thread, chan := st.chan }

/-- Effect of a sequence of inputs on the bank, left to right. -/
def bankRun : List BankInput → Bank → Option Bank
  | [], b => some b
  | i :: rest, b => (bankStep i b).bind (bankRun rest)

/-- Every car calls `Start` at time `t0` on the channel `sh`. -/
def bankStart (t0 : ℚ) (cars : List Impl) (sh : Shared) : Bank :=
  { threads := cars.map fun c => (Start t0 c sh).thread
    chan := sh
    pushed := sh.m_Events }

/-- Requests admitted by the cars of the bank, car by car. -/
def admittedEvents : List Thread → List Event
  | [] => []
  | t :: rest => t.admitted.map (fun a => a.event) ++ admittedEvents rest

/-- The requests given to the bank are, as a multiset, the requests still in
the queue together with those the cars admitted. -/
def bankInv (b : Bank) : Prop :=
  List.Perm b.pushed (admittedEvents b.threads ++ b.chan.m_Events)

/-- Two idle cars at floor 1 and two requests from floor 1 pushed back to
back; car 0 wakes first, then car 1, then a third request arrives. -/
def twoCarsInputs : List BankInput :=
  [BankInput.push ⟨1, 3⟩, BankInput.push ⟨1, 4⟩, BankInput.wake 0 0,
   BankInput.wake 1 0, BankInput.push ⟨6, 7⟩]

/-- State of the bank at the end of `twoCarsInputs`. -/
def twoCarsState : Bank :=
  { threads :=
      [{ car :=
           { m_Number := 1, m_TimePerFloor := 1, m_Capacity := 5, m_Passangers := 0,
             m_Position := 1, m_Direction := Direction.Down, m_Time := 0,
             m_TimeToAction := -2, m_HasToMoveDown := false,
             m_Floors := [(1, 1), (3, -1)] }
         deadline := -2
         returned := false
         admitted := [⟨Direction.None, 1, ⟨1, 3⟩⟩] },
       { car :=
           { m_Number := 2, m_TimePerFloor := 2, m_Capacity := 5, m_Passangers := 0,
             m_Position := 1, m_Direction := Direction.Down, m_Time := 0,
             m_TimeToAction := -6, m_HasToMoveDown := false,
             m_Floors := [(1, 1), (4, -1)] }
         deadline := -6
         returned := false
         admitted := [⟨Direction.None, 1, ⟨1, 4⟩⟩] }]
    chan := { m_Events := [⟨6, 7⟩], m_StopFlag := false }
    pushed := [⟨1, 3⟩, ⟨1, 4⟩, ⟨6, 7⟩] }

/-! ## Facts about the map operations -/

theorem mapFind_eq_none_of_not_mem (k : Int) (m : Floors) (h : k ∉ mapKeys m) :
    mapFind k m = none := by
  induction m with
  | nil => rfl
  | cons e rest ih =>
    obtain ⟨k1, v⟩ := e
    simp only [mapKeys, List.map_cons, List.mem_cons, not_or] at h
    simp only [mapFind, if_neg h.1]
    exact ih h.2

theorem mapFind_isSome_iff (k : Int) (m : Floors) :
    (mapFind k m).isSome = true ↔ k ∈ mapKeys m := by
  induction m with
  | nil => simp [mapFind, mapKeys]
  | cons e rest ih =>
    obtain ⟨k1, v⟩ := e
    by_cases hk : k = k1
    · simp [mapFind, mapKeys, hk]
    · simp only [mapFind, if_neg hk, mapKeys, List.map_cons, List.mem_cons, hk, false_or]
      exact ih

theorem mapKeys_mapAssign (k : Int) (f : Int → Int) (m : Floors) :
    mapKeys (mapAssign k f m) = mapKeys m := by
  induction m with
  | nil => rfl
  | cons e rest ih =>
    obtain ⟨k1, v⟩ := e
    by_cases hk : k = k1
    · simp [mapAssign, mapKeys, hk]
    · simp only [mapAssign, if_neg hk, mapKeys, List.map_cons] at ih ⊢
      rw [ih]

theorem mapFind_mapAssign (k k2 : Int) (f : Int → Int) (m : Floors) :
    mapFind k2 (mapAssign k f m) =
      if k2 = k then (mapFind k m).map f else mapFind k2 m := by
  induction m with
  | nil => simp [mapAssign, mapFind]
  | cons e rest ih =>
    obtain ⟨k1, v⟩ := e
    by_cases hk : k = k1
    · subst hk
      by_cases h2 : k2 = k
      · simp [mapAssign, mapFind, h2]
      · simp [mapAssign, mapFind, h2]
    · by_cases h2 : k2 = k
      · subst h2
        simp only [mapAssign, if_neg hk, mapFind, if_true] at ih ⊢
        exact ih
      · by_cases h3 : k2 = k1
        · subst h3
          simp [mapAssign, mapFind, hk, h2]
        · simp only [mapAssign, if_neg hk, mapFind, if_neg h3, if_neg h2] at ih ⊢
          exact ih

theorem mem_mapKeys_mapSubscript (k k2 : Int) (m : Floors) :
    k2 ∈ mapKeys (mapSubscript k m) ↔ k2 = k ∨ k2 ∈ mapKeys m := by
  induction m with
  | nil => simp [mapSubscript, mapKeys]
  | cons e rest ih =>
    obtain ⟨k1, v⟩ := e
    by_cases h1 : k < k1
    · simp [mapSubscript, mapKeys, h1]
    · by_cases h2 : k = k1
      · subst h2
        simp [mapSubscript, mapKeys]
      · simp only [mapSubscript, if_neg h1, if_neg h2, mapKeys, List.map_cons,
          List.mem_cons] at ih ⊢
        rw [ih]
        tauto

theorem mapSorted_tail (e : Int × Int) (rest : Floors) (h : mapSorted (e :: rest)) :
    mapSorted rest := by
  unfold mapSorted mapKeys at h ⊢
  rw [List.map_cons, List.pairwise_cons] at h
  exact h.2

theorem mapSorted_head_lt (e : Int × Int) (rest : Floors) (h : mapSorted (e :: rest))
    (k : Int) (hk : k ∈ mapKeys rest) : e.1 < k := by
  unfold mapSorted mapKeys at h
  rw [List.map_cons, List.pairwise_cons] at h
  exact h.1 k hk

theorem mapSorted_mapSubscript (k : Int) (m : Floors) (h : mapSorted m) :
    mapSorted (mapSubscript k m) := by
  induction m with
  | nil => simp [mapSubscript, mapSorted, mapKeys]
  | cons e rest ih =>
    obtain ⟨k1, v⟩ := e
    have hlt := mapSorted_head_lt (k1, v) rest h
    have htl := mapSorted_tail (k1, v) rest h
    by_cases h1 : k < k1
    · simp only [mapSubscript, if_pos h1]
      unfold mapSorted mapKeys at h ⊢
      rw [List.map_cons, List.pairwise_cons]
      refine ⟨?_, h⟩
      intro a ha
      rw [List.map_cons, List.mem_cons] at ha
      rcases ha with ha | ha
      · rw [ha]; exact h1
      · exact lt_trans h1 (hlt a ha)
    · by_cases h2 : k = k1
      · simp only [mapSubscript, if_neg h1, if_pos h2]
        exact h
      · simp only [mapSubscript, if_neg h1, if_neg h2]
        have ih2 := ih htl
        unfold mapSorted at ih2 ⊢
        show List.Pairwise _ (k1 :: mapKeys (mapSubscript k rest))
        rw [List.pairwise_cons]
        refine ⟨?_, ih2⟩
        intro a ha
        rcases (mem_mapKeys_mapSubscript k a rest).1 ha with ha | ha
        · rw [ha]; omega
        · exact hlt a ha

theorem mapSorted_mapAssign (k : Int) (f : Int → Int) (m : Floors) (h : mapSorted m) :
    mapSorted (mapAssign k f m) := by
  unfold mapSorted at h ⊢
  rw [mapKeys_mapAssign]
  exact h

theorem mapFind_mapSubscript (k k2 : Int) (m : Floors) (h : mapSorted m) :
    mapFind k2 (mapSubscript k m) =
      if k2 = k then some ((mapFind k m).getD 0) else mapFind k2 m := by
  induction m with
  | nil =>
    by_cases h2 : k2 = k
    · simp [mapSubscript, mapFind, h2]
    · simp [mapSubscript, mapFind, h2]
  | cons e rest ih =>
    obtain ⟨k1, v⟩ := e
    have hlt := mapSorted_head_lt (k1, v) rest h
    have htl := mapSorted_tail (k1, v) rest h
    by_cases h1 : k < k1
    · have hne : k ≠ k1 := by omega
      have hnot : k ∉ mapKeys rest := fun hm => by
        have := hlt k hm
        simp only at this
        omega
      have hnone : mapFind k rest = none := mapFind_eq_none_of_not_mem k rest hnot
      by_cases h2 : k2 = k
      · subst h2
        simp [mapSubscript, mapFind, h1, hne, hnone]
      · simp [mapSubscript, mapFind, h1, h2]
    · by_cases h3 : k = k1
      · subst h3
        by_cases h2 : k2 = k
        · subst h2
          simp [mapSubscript, mapFind]
        · simp [mapSubscript, mapFind, h2]
      · by_cases h2 : k2 = k
        · subst h2
          simp only [mapSubscript, if_neg h1, if_neg h3, mapFind, if_true] at ih ⊢
          exact ih htl
        · by_cases h4 : k2 = k1
          · subst h4
            simp [mapSubscript, mapFind, h1, h3, h2]
          · simp only [mapSubscript, if_neg h1, if_neg h3, mapFind, if_neg h4, if_neg h2]
              at ih ⊢
            exact ih htl

theorem mapSorted_mapIncr (k : Int) (m : Floors) (h : mapSorted m) :
    mapSorted (mapIncr k m) :=
  mapSorted_mapAssign k _ _ (mapSorted_mapSubscript k m h)

theorem mapSorted_mapDecr (k : Int) (m : Floors) (h : mapSorted m) :
    mapSorted (mapDecr k m) :=
  mapSorted_mapAssign k _ _ (mapSorted_mapSubscript k m h)

theorem mapFind_mapIncr (k k2 : Int) (m : Floors) (h : mapSorted m) :
    mapFind k2 (mapIncr k m) =
      if k2 = k then some ((mapFind k m).getD 0 + 1) else mapFind k2 m := by
  unfold mapIncr
  rw [mapFind_mapAssign, mapFind_mapSubscript k k2 m h, mapFind_mapSubscript k k m h]
  by_cases h2 : k2 = k <;> simp [h2]

theorem mapFind_mapDecr (k k2 : Int) (m : Floors) (h : mapSorted m) :
    mapFind k2 (mapDecr k m) =
      if k2 = k then some ((mapFind k m).getD 0 - 1) else mapFind k2 m := by
  unfold mapDecr
  rw [mapFind_mapAssign, mapFind_mapSubscript k k2 m h, mapFind_mapSubscript k k m h]
  by_cases h2 : k2 = k <;> simp [h2]

theorem mem_mapKeys_mapIncr (k k2 : Int) (m : Floors) :
    k2 ∈ mapKeys (mapIncr k m) ↔ k2 = k ∨ k2 ∈ mapKeys m := by
  unfold mapIncr
  rw [mapKeys_mapAssign, mem_mapKeys_mapSubscript]

theorem mem_mapKeys_mapDecr (k k2 : Int) (m : Floors) :
    k2 ∈ mapKeys (mapDecr k m) ↔ k2 = k ∨ k2 ∈ mapKeys m := by
  unfold mapDecr
  rw [mapKeys_mapAssign, mem_mapKeys_mapSubscript]

theorem mapSubscript_ne_nil (k : Int) (m : Floors) : mapSubscript k m ≠ [] := by
  cases m with
  | nil => simp [mapSubscript]
  | cons e rest =>
    obtain ⟨k1, v⟩ := e
    simp only [mapSubscript]
    split_ifs <;> simp

theorem mapAssign_ne_nil (k : Int) (f : Int → Int) (m : Floors) (h : m ≠ []) :
    mapAssign k f m ≠ [] := by
  cases m with
  | nil => exact absurd rfl h
  | cons e rest =>
    obtain ⟨k1, v⟩ := e
    simp only [mapAssign]
    split_ifs <;> simp

/-! ## Facts about the car operations -/

theorem UpdateTimeToAction_frame (c : Impl) :
    (UpdateTimeToAction c).m_Floors = c.m_Floors ∧
    (UpdateTimeToAction c).m_Direction = c.m_Direction ∧
    (UpdateTimeToAction c).m_Passangers = c.m_Passangers ∧
    (UpdateTimeToAction c).m_Position = c.m_Position ∧
    (UpdateTimeToAction c).m_Capacity = c.m_Capacity ∧
    (UpdateTimeToAction c).m_TimePerFloor = c.m_TimePerFloor ∧
    (UpdateTimeToAction c).m_HasToMoveDown = c.m_HasToMoveDown ∧
    (UpdateTimeToAction c).m_Time = c.m_Time := by
  unfold UpdateTimeToAction
  split_ifs
  · simp
  · split
    · split <;> simp
    · split <;> simp
    · simp

theorem ProcessEvent_floors (event : Event) (c : Impl) :
    (ProcessEvent event c).m_Floors =
      mapDecr event.floorTo (mapIncr event.floorFrom c.m_Floors) := by
  unfold ProcessEvent
  simp only [(UpdateTimeToAction_frame _).1]
  split
  · split_ifs <;> rfl
  · rfl

theorem ProcessEvent_direction (event : Event) (c : Impl) :
    (ProcessEvent event c).m_Direction =
      match c.m_Direction with
      | Direction.None =>
        if c.m_Position < (event.floorFrom : ℚ) then Direction.Up else Direction.Down
      | d => d := by
  unfold ProcessEvent
  simp only [(UpdateTimeToAction_frame _).2.1]
  cases hd : c.m_Direction
  · simp only [hd]
    split_ifs <;> rfl
  · simp [hd]
  · simp [hd]

theorem ProcessEvent_frame (event : Event) (c : Impl) :
    (ProcessEvent event c).m_Passangers = c.m_Passangers ∧
    (ProcessEvent event c).m_Position = c.m_Position ∧
    (ProcessEvent event c).m_Capacity = c.m_Capacity ∧
    (ProcessEvent event c).m_TimePerFloor = c.m_TimePerFloor ∧
    (ProcessEvent event c).m_Time = c.m_Time ∧
    (ProcessEvent event c).m_HasToMoveDown = false := by
  unfold ProcessEvent
  simp only [(UpdateTimeToAction_frame _).2.2.1, (UpdateTimeToAction_frame _).2.2.2.1,
    (UpdateTimeToAction_frame _).2.2.2.2.1, (UpdateTimeToAction_frame _).2.2.2.2.2.1,
    (UpdateTimeToAction_frame _).2.2.2.2.2.2.1, (UpdateTimeToAction_frame _).2.2.2.2.2.2.2]
  cases hd : c.m_Direction
  · simp only [hd]
    split_ifs <;> simp
  · simp [hd]
  · simp [hd]

theorem ProcessEvent_floors_ne_nil (event : Event) (c : Impl) :
    (ProcessEvent event c).m_Floors ≠ [] := by
  rw [ProcessEvent_floors]
  exact mapAssign_ne_nil _ _ _ (mapSubscript_ne_nil _ _)

theorem ProcessEvent_direction_ne_None (event : Event) (c : Impl) :
    (ProcessEvent event c).m_Direction ≠ Direction.None := by
  rw [ProcessEvent_direction]
  cases hd : c.m_Direction
  · simp only
    split_ifs <;> simp
  · simp
  · simp

theorem ProcessEvent_sorted (event : Event) (c : Impl) (h : mapSorted c.m_Floors) :
    mapSorted (ProcessEvent event c).m_Floors := by
  rw [ProcessEvent_floors]
  exact mapSorted_mapDecr _ _ (mapSorted_mapIncr _ _ h)

/-- The downward stop never yields a state: its `erase` is handed `++end()`. -/
theorem stopDown_eq_none (c : Impl) : stopDown c = none := by
  unfold stopDown
  have hinc : iterIncr c.m_Floors (rbeginBase c.m_Floors) = none := by
    simp [iterIncr, rbeginBase, mapEnd]
  show ((revDeref c.m_Floors (rbeginBase c.m_Floors)).bind fun entry =>
    (iterIncr c.m_Floors (rbeginBase c.m_Floors)).bind fun it =>
      (mapErase c.m_Floors it).map fun fl =>
        { c with m_Position := (entry.1 : ℚ)
                 m_Passangers := c.m_Passangers + entry.2
                 m_Floors := fl }) = none
  rw [hinc]
  cases revDeref c.m_Floors (rbeginBase c.m_Floors) <;> rfl

theorem stopUp_cons (c : Impl) (e : Int × Int) (rest : Floors)
    (h : c.m_Floors = e :: rest) :
    stopUp c = some { c with m_Position := (e.1 : ℚ)
                             m_Passangers := c.m_Passangers + e.2
                             m_Floors := rest } := by
  simp [stopUp, mapBegin, iterDeref, mapErase, h]

theorem PerformAction_up_cons (c : Impl) (e : Int × Int) (rest : Floors)
    (hdir : c.m_Direction = Direction.Up) (h : c.m_Floors = e :: rest) :
    PerformAction c = some (afterStop { c with m_Position := (e.1 : ℚ)
                                               m_Passangers := c.m_Passangers + e.2
                                               m_Floors := rest }) := by
  have hs := stopUp_cons c e rest h
  unfold PerformAction
  simp only [h, List.isEmpty_cons, Bool.false_eq_true, if_false]
  split
  · rw [hs]; rfl
  · rename_i hd; rw [hdir] at hd; cases hd
  · rename_i hd; rw [hdir] at hd; cases hd

theorem PerformAction_down_undefined (c : Impl)
    (hdir : c.m_Direction = Direction.Down) (h : c.m_Floors ≠ []) :
    PerformAction c = none := by
  unfold PerformAction
  have hne : c.m_Floors.isEmpty = false := by
    cases hf : c.m_Floors with
    | nil => exact absurd hf h
    | cons e rest => rfl
  simp [hne, hdir, stopDown_eq_none]

theorem afterStop_frame (c : Impl) :
    (afterStop c).m_Floors = c.m_Floors ∧
    (afterStop c).m_Passangers = c.m_Passangers ∧
    (afterStop c).m_Position = c.m_Position ∧
    (afterStop c).m_Capacity = c.m_Capacity ∧
    (afterStop c).m_TimePerFloor = c.m_TimePerFloor := by
  unfold afterStop
  have hf := UpdateTimeToAction_frame
    (if c.m_Floors.isEmpty then { c with m_Direction := Direction.None } else c)
  refine ⟨?_, ?_, ?_, ?_, ?_⟩
  · rw [hf.1]; split_ifs <;> rfl
  · rw [hf.2.2.1]; split_ifs <;> rfl
  · rw [hf.2.2.2.1]; split_ifs <;> rfl
  · rw [hf.2.2.2.2.1]; split_ifs <;> rfl
  · rw [hf.2.2.2.2.2.1]; split_ifs <;> rfl

theorem afterStop_direction (c : Impl) :
    (afterStop c).m_Direction =
      if c.m_Floors.isEmpty then Direction.None else c.m_Direction := by
  unfold afterStop
  rw [(UpdateTimeToAction_frame _).2.1]
  split_ifs <;> rfl

theorem PerformAction_empty (c : Impl) (h : c.m_Floors = []) :
    PerformAction c = some c := by
  unfold PerformAction
  simp [h]

theorem dirInv_ProcessEvent (event : Event) (c : Impl) : dirInv (ProcessEvent event c) :=
  ⟨fun h => absurd h (ProcessEvent_direction_ne_None event c),
   fun h => absurd h (ProcessEvent_floors_ne_nil event c)⟩

theorem dirInv_afterStop (x : Impl) (hx : x.m_Direction ≠ Direction.None) :
    dirInv (afterStop x) := by
  unfold dirInv
  rw [afterStop_direction, (afterStop_frame x).1]
  cases hf : x.m_Floors with
  | nil => simp
  | cons e rest => simp [hx]

theorem dirInv_PerformAction (c c1 : Impl) (h : PerformAction c = some c1)
    (hinv : dirInv c) : dirInv c1 := by
  cases hf : c.m_Floors with
  | nil =>
    rw [PerformAction_empty c hf] at h
    cases h
    exact hinv
  | cons e rest =>
    cases hd : c.m_Direction with
    | None =>
      have := hinv.1 hd
      rw [hf] at this
      cases this
    | Up =>
      rw [PerformAction_up_cons c e rest hd hf] at h
      cases h
      apply dirInv_afterStop
      simp [hd]
    | Down =>
      rw [PerformAction_down_undefined c hd (by rw [hf]; simp)] at h
      cases h

theorem dirInv_applyOp (op : Op) (c c1 : Impl) (h : applyOp op c = some c1)
    (hinv : dirInv c) : dirInv c1 := by
  cases op with
  | processEvent event =>
    simp only [applyOp, Option.some.injEq] at h
    rw [← h]
    exact dirInv_ProcessEvent event c
  | performAction => exact dirInv_PerformAction c c1 h hinv
  | idleTimer =>
    simp only [applyOp, Option.some.injEq] at h
    rw [← h]
    exact hinv
  | updatePosition now =>
    simp only [applyOp, Option.some.injEq] at h
    rw [← h]
    unfold dirInv UpdateCurrentPosition at *
    cases hd : c.m_Direction <;> simp [hd] at hinv ⊢ <;> exact hinv

theorem dirInv_applyOps (ops : List Op) (c c1 : Impl) (h : applyOps ops c = some c1)
    (hinv : dirInv c) : dirInv c1 := by
  induction ops generalizing c with
  | nil =>
    simp only [applyOps, Option.some.injEq] at h
    rw [← h]
    exact hinv
  | cons op rest ih =>
    simp only [applyOps] at h
    cases hop : applyOp op c with
    | none => rw [hop] at h; cases h
    | some c2 =>
      rw [hop] at h
      exact ih c2 h (dirInv_applyOp op c c2 hop hinv)

theorem mapSorted_PerformAction (c c1 : Impl) (h : PerformAction c = some c1)
    (hs : mapSorted c.m_Floors) : mapSorted c1.m_Floors := by
  cases hf : c.m_Floors with
  | nil =>
    rw [PerformAction_empty c hf] at h
    cases h
    exact hs
  | cons e rest =>
    cases hd : c.m_Direction with
    | None =>
      unfold PerformAction at h
      simp only [hf, hd, List.isEmpty_cons, Bool.false_eq_true, if_false] at h
      obtain ⟨c2, h2, h3⟩ := Option.map_eq_some'.1 h
      cases h2
      rw [← h3, (afterStop_frame c).1]
      exact hs
    | Up =>
      rw [PerformAction_up_cons c e rest hd hf] at h
      cases h
      rw [(afterStop_frame _).1]
      rw [hf] at hs
      exact mapSorted_tail e rest hs
    | Down =>
      rw [PerformAction_down_undefined c hd (by rw [hf]; simp)] at h
      cases h

/-- The plan of a car is a well-formed map in every state reached from the
constructed car. -/
theorem mapSorted_applyOps (ops : List Op) (c c1 : Impl) (h : applyOps ops c = some c1)
    (hs : mapSorted c.m_Floors) : mapSorted c1.m_Floors := by
  induction ops generalizing c with
  | nil =>
    simp only [applyOps, Option.some.injEq] at h
    rw [← h]
    exact hs
  | cons op rest ih =>
    simp only [applyOps] at h
    obtain ⟨c2, hop, hrest⟩ := Option.bind_eq_some.1 h
    refine ih c2 hrest ?_
    cases op with
    | processEvent event =>
      simp only [applyOp, Option.some.injEq] at hop
      rw [← hop]
      exact ProcessEvent_sorted event c hs
    | performAction => exact mapSorted_PerformAction c c2 hop hs
    | idleTimer =>
      simp only [applyOp, Option.some.injEq] at hop
      rw [← hop]
      exact hs
    | updatePosition now =>
      simp only [applyOp, Option.some.injEq] at hop
      rw [← hop]
      unfold UpdateCurrentPosition
      cases c.m_Direction <;> exact hs

/-! ## Facts about the control loop -/

theorem checkCondition_false_stop (now : ℚ) (sh : Shared) (c : Impl)
    (h : (checkCondition now sh c).1 = false) : sh.m_StopFlag = false := by
  unfold checkCondition at h
  cases he : sh.m_Events with
  | nil => simpa [he] using h
  | cons e rest =>
    simp only [he] at h
    split_ifs at h
    · exact h
    · simp only [Bool.or_eq_false_iff] at h
      exact h.2

theorem checkCondition_admits (now : ℚ) (sh : Shared) (c : Impl)
    (h : (checkCondition now sh c).1 = true) (hs : sh.m_StopFlag = false) :
    ∃ e rest, sh.m_Events = e :: rest ∧ c.m_Passangers ≠ c.m_Capacity ∧
      (checkCondition now sh c).2 = UpdateCurrentPosition now c ∧
      CheckForPickUp (UpdateCurrentPosition now c) e = true := by
  unfold checkCondition at h ⊢
  cases he : sh.m_Events with
  | nil =>
    simp only [he] at h
    rw [hs] at h
    cases h
  | cons e rest =>
    simp only [he] at h ⊢
    by_cases hp : c.m_Passangers = c.m_Capacity
    · simp only [if_pos hp] at h
      rw [hs] at h
      cases h
    · simp only [if_neg hp] at h
      rw [hs, Bool.or_false] at h
      refine ⟨e, rest, rfl, hp, ?_, h⟩
      rw [if_neg hp]

theorem goodAdmission_of_check (c : Impl) (e : Event)
    (h : CheckForPickUp c e = true) :
    goodAdmission ⟨c.m_Direction, c.m_Position, e⟩ := by
  unfold CheckForPickUp at h
  unfold goodAdmission
  cases hd : c.m_Direction with
  | None => simp
  | Up =>
    simp only [hd, decide_eq_true_eq] at h
    simp only [true_implies, reduceCtorEq, false_implies, and_true, not_lt]
    exact le_of_lt h
  | Down =>
    simp only [hd, decide_eq_true_eq] at h
    simp only [true_implies, reduceCtorEq, false_implies, true_and, not_lt, gt_iff_lt]
    exact le_of_lt h

theorem admitFront_good (st st1 : Loop) (e : Event) (rest : List Event)
    (he : st.chan.m_Events = e :: rest) (hc : CheckForPickUp st.car e = true)
    (hg : ∀ a ∈ st.admitted, goodAdmission a) (h : admitFront st = some st1) :
    (∀ a ∈ st1.admitted, goodAdmission a) ∧
      st1.chan.m_StopFlag = st.chan.m_StopFlag := by
  unfold admitFront at h
  rw [he] at h
  simp only [Option.some.injEq] at h
  rw [← h]
  refine ⟨?_, rfl⟩
  intro a ha
  simp only [List.mem_append, List.mem_singleton] at ha
  rcases ha with ha | ha
  · exact hg a ha
  · rw [ha]
    exact goodAdmission_of_check st.car e hc

theorem admitFront_after_check_good (now : ℚ) (st st1 : Loop)
    (hr : (checkCondition now st.chan st.car).1 = true)
    (hs : st.chan.m_StopFlag = false)
    (hg : ∀ a ∈ st.admitted, goodAdmission a)
    (h : admitFront { st with car := (checkCondition now st.chan st.car).2 } = some st1) :
    (∀ a ∈ st1.admitted, goodAdmission a) ∧ st1.chan.m_StopFlag = false := by
  obtain ⟨e, rest, he, _, h2, hcheck⟩ := checkCondition_admits now st.chan st.car hr hs
  have hc : CheckForPickUp
      ({ st with car := (checkCondition now st.chan st.car).2 } : Loop).car e = true := by
    show CheckForPickUp (checkCondition now st.chan st.car).2 e = true
    rw [h2]
    exact hcheck
  have hgood := admitFront_good
    { st with car := (checkCondition now st.chan st.car).2 } st1 e rest he hc hg h
  exact ⟨hgood.1, hgood.2.trans hs⟩

theorem drain_good (now : ℚ) (fuel : Nat) (st st1 : Loop)
    (hs : st.chan.m_StopFlag = false)
    (hg : ∀ a ∈ st.admitted, goodAdmission a) (h : drain now fuel st = some st1) :
    ∀ a ∈ st1.admitted, goodAdmission a := by
  induction fuel generalizing st with
  | zero => simp [drain] at h
  | succ n ih =>
    simp only [drain] at h
    by_cases hr : (checkCondition now st.chan st.car).1 = true
    · rw [if_pos hr] at h
      obtain ⟨st2, ha, hd⟩ := Option.bind_eq_some.1 h
      have hgood := admitFront_after_check_good now st st2 hr hs hg ha
      exact ih st2 hgood.2 hgood.1 hd
    · rw [if_neg hr] at h
      simp only [Option.some.injEq] at h
      rw [← h]
      exact hg

theorem timeoutBranch_good (now : ℚ) (st st1 : Loop)
    (hs : st.chan.m_StopFlag = false)
    (hg : ∀ a ∈ st.admitted, goodAdmission a) (h : timeoutBranch now st = some st1) :
    ∀ a ∈ st1.admitted, goodAdmission a := by
  unfold timeoutBranch at h
  obtain ⟨c1, _, h1⟩ := Option.bind_eq_some.1 h
  by_cases hempty : c1.m_Floors.isEmpty = true
  · rw [if_pos hempty] at h1
    obtain ⟨st2, hd, h2⟩ := Option.map_eq_some'.1 h1
    have hg2 := drain_good now _ { st with car := c1 } st2 hs hg hd
    rw [← h2]
    split_ifs
    · exact hg2
    · exact hg2
  · rw [if_neg hempty] at h1
    simp only [Option.some.injEq] at h1
    rw [← h1]
    exact hg

theorem wake_good (now : ℚ) (st st1 : Loop)
    (hg : ∀ a ∈ st.admitted, goodAdmission a) (h : wake now st = some st1) :
    ∀ a ∈ st1.admitted, goodAdmission a := by
  unfold wake at h
  by_cases hret : st.returned = true
  · rw [if_pos hret] at h
    simp only [Option.some.injEq] at h
    rw [← h]
    exact hg
  · rw [if_neg hret] at h
    by_cases hr : (checkCondition now st.chan st.car).1 = true
    · simp only [hr, if_true] at h
      by_cases hs : st.chan.m_StopFlag = true
      · simp only [hs, Bool.not_true, Bool.false_eq_true, if_false, Option.some.injEq] at h
        rw [← h]
        exact hg
      · have hs2 : st.chan.m_StopFlag = false := by simpa using hs
        simp only [hs2, Bool.not_false, if_true] at h
        obtain ⟨st2, ha, h2⟩ := Option.map_eq_some'.1 h
        have hgood := admitFront_after_check_good now st st2 hr hs2 hg ha
        rw [← h2]
        exact hgood.1
    · have hr2 : (checkCondition now st.chan st.car).1 = false := by simpa using hr
      have hs := checkCondition_false_stop now st.chan st.car hr2
      simp only [hr2, Bool.false_eq_true, if_false] at h
      by_cases hdl : now < st.deadline
      · rw [if_pos hdl] at h
        simp only [Option.some.injEq] at h
        rw [← h]
        exact hg
      · rw [if_neg hdl] at h
        obtain ⟨st2, ht, h2⟩ := Option.map_eq_some'.1 h
        have hg2 := timeoutBranch_good now
          { st with car := (checkCondition now st.chan st.car).2 } st2 hs hg ht
        rw [← h2]
        exact hg2

theorem run_good (inputs : List Input) (st st1 : Loop)
    (hg : ∀ a ∈ st.admitted, goodAdmission a) (h : run inputs st = some st1) :
    ∀ a ∈ st1.admitted, goodAdmission a := by
  induction inputs generalizing st with
  | nil =>
    simp only [run, Option.some.injEq] at h
    rw [← h]
    exact hg
  | cons i rest ih =>
    simp only [run] at h
    obtain ⟨st2, hstep, hrest⟩ := Option.bind_eq_some.1 h
    refine ih st2 ?_ hrest
    cases i with
    | push event =>
      simp only [step, Option.some.injEq] at hstep
      rw [← hstep]
      exact hg
    | stopAll =>
      simp only [step, Option.some.injEq] at hstep
      rw [← hstep]
      exact hg
    | wake now => exact wake_good now st st2 hg hstep

/-- The fuel given to `drain` by the timeout branch is never used up: with the
stop flag clear the loop ends with a state after at most one evaluation of
the condition per queued request, plus one. -/
theorem drain_returns (now : ℚ) (fuel : Nat) (st : Loop)
    (hs : st.chan.m_StopFlag = false) (hfuel : st.chan.m_Events.length < fuel) :
    ∃ st1, drain now fuel st = some st1 := by
  induction fuel generalizing st with
  | zero => exact absurd hfuel (Nat.not_lt_zero _)
  | succ n ih =>
    simp only [drain]
    by_cases hr : (checkCondition now st.chan st.car).1 = true
    · rw [if_pos hr]
      obtain ⟨e, rest, he, _, _, _⟩ := checkCondition_admits now st.chan st.car hr hs
      have ha : admitFront { st with car := (checkCondition now st.chan st.car).2 } =
          some { st with
            car := ProcessEvent e (checkCondition now st.chan st.car).2
            chan := { st.chan with m_Events := rest }
            admitted := st.admitted ++
              [⟨(checkCondition now st.chan st.car).2.m_Direction,
                (checkCondition now st.chan st.car).2.m_Position, e⟩] } := by
        unfold admitFront
        simp only [he]
      rw [ha]
      simp only [Option.bind_some]
      apply ih
      · exact hs
      · rw [he] at hfuel
        simp only [List.length_cons] at hfuel
        simp only
        omega
    · rw [if_neg hr]
      exact ⟨_, rfl⟩

/-- While the car moves up, as many `PerformAction` steps as the plan has
entries empty the plan, reset the direction and apply every delta. -/
theorem performN_up_empties (c : Impl) (hdir : c.m_Direction = Direction.Up)
    (hne : c.m_Floors ≠ []) :
    ∃ c1, performN c.m_Floors.length c = some c1 ∧ c1.m_Floors = [] ∧
      c1.m_Direction = Direction.None ∧
      c1.m_Passangers = c.m_Passangers + (c.m_Floors.map Prod.snd).sum := by
  generalize hfl : c.m_Floors = fl at hne
  induction fl generalizing c with
  | nil => exact absurd rfl hne
  | cons e rest ih =>
    have hp := PerformAction_up_cons c e rest hdir hfl
    simp only [List.length_cons, performN, hp, Option.bind_some]
    cases hr : rest with
    | nil =>
      refine ⟨_, rfl, ?_, ?_, ?_⟩
      · rw [(afterStop_frame _).1]
      · rw [afterStop_direction]; rfl
      · rw [(afterStop_frame _).2.1]; simp
    | cons e2 rest2 =>
      rw [← hr]
      have hfl2 : (afterStop { c with m_Position := (e.1 : ℚ)
                                      m_Passangers := c.m_Passangers + e.2
                                      m_Floors := rest }).m_Floors = rest := by
        rw [(afterStop_frame _).1]
      have hdir2 : (afterStop { c with m_Position := (e.1 : ℚ)
                                       m_Passangers := c.m_Passangers + e.2
                                       m_Floors := rest }).m_Direction = Direction.Up := by
        rw [afterStop_direction]
        simp [hr, hdir]
      obtain ⟨c1, h1, h2, h3, h4⟩ := ih _ hdir2 hfl2 (by rw [hr]; simp)
      refine ⟨c1, h1, h2, h3, ?_⟩
      rw [h4, (afterStop_frame _).2.1]
      simp only [List.map_cons, List.sum_cons]
      ring

/-! ## The control loop only performs the operations of `Op` -/

theorem applyOps_append (xs ys : List Op) (c : Impl) :
    applyOps (xs ++ ys) c = (applyOps xs c).bind (applyOps ys) := by
  induction xs generalizing c with
  | nil => rfl
  | cons op rest ih =>
    simp only [List.cons_append, applyOps]
    cases applyOp op c with
    | none => rfl
    | some c2 => exact ih c2

theorem opReach_trans (c c1 c2 : Impl) (h1 : ∃ ops, applyOps ops c = some c1)
    (h2 : ∃ ops, applyOps ops c1 = some c2) : ∃ ops, applyOps ops c = some c2 := by
  obtain ⟨xs, hx⟩ := h1
  obtain ⟨ys, hy⟩ := h2
  exact ⟨xs ++ ys, by rw [applyOps_append, hx]; exact hy⟩

theorem checkCondition_ops (now : ℚ) (sh : Shared) (c : Impl) :
    ∃ ops, applyOps ops c = some (checkCondition now sh c).2 := by
  unfold checkCondition
  cases sh.m_Events with
  | nil => exact ⟨[], rfl⟩
  | cons e rest =>
    by_cases hp : c.m_Passangers = c.m_Capacity
    · exact ⟨[], by simp [hp, applyOps]⟩
    · exact ⟨[Op.updatePosition now], by simp [hp, applyOps, applyOp]⟩

theorem admitFront_ops (st st1 : Loop) (h : admitFront st = some st1) :
    ∃ ops, applyOps ops st.car = some st1.car := by
  unfold admitFront at h
  cases he : st.chan.m_Events with
  | nil => rw [he] at h; cases h
  | cons e rest =>
    rw [he] at h
    simp only [Option.some.injEq] at h
    rw [← h]
    exact ⟨[Op.processEvent e], rfl⟩

theorem drain_ops (now : ℚ) (fuel : Nat) (st st1 : Loop)
    (h : drain now fuel st = some st1) :
    ∃ ops, applyOps ops st.car = some st1.car := by
  induction fuel generalizing st with
  | zero => simp [drain] at h
  | succ n ih =>
    simp only [drain] at h
    have hc := checkCondition_ops now st.chan st.car
    by_cases hr : (checkCondition now st.chan st.car).1 = true
    · rw [if_pos hr] at h
      obtain ⟨st2, ha, hd⟩ := Option.bind_eq_some.1 h
      exact opReach_trans _ _ _ hc
        (opReach_trans _ _ _ (admitFront_ops _ st2 ha) (ih st2 hd))
    · rw [if_neg hr] at h
      simp only [Option.some.injEq] at h
      rw [← h]
      exact hc

theorem idleStep_ops (c : Impl) : ∃ ops, applyOps ops c = some (idleStep c) := by
  unfold idleStep
  by_cases hm : c.m_HasToMoveDown = true
  · exact ⟨[Op.processEvent ⟨1, 0⟩], by simp [hm, applyOps, applyOp]⟩
  · exact ⟨[Op.idleTimer], by simp [hm, applyOps, applyOp]⟩

theorem timeoutBranch_ops (now : ℚ) (st st1 : Loop)
    (h : timeoutBranch now st = some st1) :
    ∃ ops, applyOps ops st.car = some st1.car := by
  unfold timeoutBranch at h
  obtain ⟨c1, hp, h1⟩ := Option.bind_eq_some.1 h
  have hperf : ∃ ops, applyOps ops st.car = some c1 :=
    ⟨[Op.performAction], by simp [applyOps, applyOp, hp]⟩
  by_cases hempty : c1.m_Floors.isEmpty = true
  · rw [if_pos hempty] at h1
    obtain ⟨st2, hd, h2⟩ := Option.map_eq_some'.1 h1
    have hdr := drain_ops now _ { st with car := c1 } st2 hd
    refine opReach_trans _ _ _ hperf (opReach_trans _ _ _ hdr ?_)
    rw [← h2]
    split_ifs
    · exact idleStep_ops st2.car
    · exact ⟨[], rfl⟩
  · rw [if_neg hempty] at h1
    simp only [Option.some.injEq] at h1
    rw [← h1]
    exact hperf

theorem wake_ops (now : ℚ) (st st1 : Loop) (h : wake now st = some st1) :
    ∃ ops, applyOps ops st.car = some st1.car := by
  unfold wake at h
  have hc := checkCondition_ops now st.chan st.car
  by_cases hret : st.returned = true
  · rw [if_pos hret] at h
    simp only [Option.some.injEq] at h
    rw [← h]
    exact ⟨[], rfl⟩
  · rw [if_neg hret] at h
    by_cases hr : (checkCondition now st.chan st.car).1 = true
    · simp only [hr, if_true] at h
      by_cases hs : st.chan.m_StopFlag = true
      · simp only [hs, Bool.not_true, Bool.false_eq_true, if_false, Option.some.injEq] at h
        rw [← h]
        exact hc
      · have hs2 : st.chan.m_StopFlag = false := by simpa using hs
        simp only [hs2, Bool.not_false, if_true] at h
        obtain ⟨st2, ha, h2⟩ := Option.map_eq_some'.1 h
        rw [← h2]
        exact opReach_trans _ _ _ hc (admitFront_ops _ st2 ha)
    · have hr2 : (checkCondition now st.chan st.car).1 = false := by simpa using hr
      simp only [hr2, Bool.false_eq_true, if_false] at h
      by_cases hdl : now < st.deadline
      · rw [if_pos hdl] at h
        simp only [Option.some.injEq] at h
        rw [← h]
        exact hc
      · rw [if_neg hdl] at h
        obtain ⟨st2, ht, h2⟩ := Option.map_eq_some'.1 h
        rw [← h2]
        exact opReach_trans _ _ _ hc (timeoutBranch_ops now _ st2 ht)

/-- Every car state the control loop reaches is reached by a sequence of the
operations of `Op`. -/
theorem run_ops (inputs : List Input) (st st1 : Loop) (h : run inputs st = some st1) :
    ∃ ops, applyOps ops st.car = some st1.car := by
  induction inputs generalizing st with
  | nil =>
    simp only [run, Option.some.injEq] at h
    rw [← h]
    exact ⟨[], rfl⟩
  | cons i rest ih =>
    simp only [run] at h
    obtain ⟨st2, hstep, hrest⟩ := Option.bind_eq_some.1 h
    refine opReach_trans _ _ _ ?_ (ih st2 hrest)
    cases i with
    | push event =>
      simp only [step, Option.some.injEq] at hstep
      rw [← hstep]
      exact ⟨[], rfl⟩
    | stopAll =>
      simp only [step, Option.some.injEq] at hstep
      rw [← hstep]
      exact ⟨[], rfl⟩
    | wake now => exact wake_ops now st st2 hstep

/-- The direction/plan invariant holds after every step of the control loop. -/
theorem run_dirInv (inputs : List Input) (t0 : ℚ) (number : Int) (timePerFloor : ℚ)
    (capacity : Int) (sh : Shared) (st : Loop)
    (h : run inputs (Start t0 (Impl.Impl number timePerFloor capacity) sh) = some st) :
    dirInv st.car := by
  obtain ⟨ops, hops⟩ := run_ops inputs _ st h
  exact dirInv_applyOps ops _ st.car hops ⟨fun _ => rfl, fun _ => rfl⟩

/-! ## Shutdown and the idle timer -/

theorem UpdateCurrentPosition_frame (now : ℚ) (c : Impl) :
    (UpdateCurrentPosition now c).m_Floors = c.m_Floors ∧
    (UpdateCurrentPosition now c).m_Passangers = c.m_Passangers ∧
    (UpdateCurrentPosition now c).m_Direction = c.m_Direction ∧
    (UpdateCurrentPosition now c).m_Capacity = c.m_Capacity ∧
    (UpdateCurrentPosition now c).m_HasToMoveDown = c.m_HasToMoveDown ∧
    (UpdateCurrentPosition now c).m_TimeToAction = c.m_TimeToAction := by
  unfold UpdateCurrentPosition
  cases c.m_Direction <;> simp

theorem checkCondition_snd (now : ℚ) (sh : Shared) (c : Impl) :
    (checkCondition now sh c).2 =
      if sh.m_Events = [] ∨ c.m_Passangers = c.m_Capacity then c
      else UpdateCurrentPosition now c := by
  unfold checkCondition
  cases he : sh.m_Events with
  | nil => simp
  | cons e rest =>
    by_cases hp : c.m_Passangers = c.m_Capacity
    · simp [hp]
    · simp [hp]

theorem checkCondition_of_stop (now : ℚ) (sh : Shared) (c : Impl)
    (hs : sh.m_StopFlag = true) : (checkCondition now sh c).1 = true := by
  unfold checkCondition
  cases he : sh.m_Events with
  | nil => simpa using hs
  | cons e rest =>
    by_cases hp : c.m_Passangers = c.m_Capacity
    · simpa [hp] using hs
    · simp [hp, hs]

theorem checkCondition_idle_false (now : ℚ) (sh : Shared) (c : Impl)
    (hd : c.m_Direction = Direction.None)
    (h : (checkCondition now sh c).1 = false) :
    (checkCondition now sh c).2 = c := by
  rw [checkCondition_snd]
  by_cases hc : sh.m_Events = [] ∨ c.m_Passangers = c.m_Capacity
  · rw [if_pos hc]
  · exfalso
    unfold checkCondition at h
    cases he : sh.m_Events with
    | nil => exact hc (Or.inl he)
    | cons e rest =>
      have hp : ¬ c.m_Passangers = c.m_Capacity := fun hp => hc (Or.inr hp)
      simp only [he, if_neg hp, Bool.or_eq_false_iff] at h
      have hcheck : CheckForPickUp (UpdateCurrentPosition now c) e = true := by
        unfold CheckForPickUp
        rw [(UpdateCurrentPosition_frame now c).2.2.1, hd]
      rw [hcheck] at h
      exact absurd h.1 (by simp)

/-! ## Passenger conservation -/

theorem planSum_mapSubscript (k : Int) (m : Floors) :
    planSum (mapSubscript k m) = planSum m := by
  induction m with
  | nil => simp [mapSubscript, planSum]
  | cons e rest ih =>
    obtain ⟨k1, v⟩ := e
    unfold planSum at ih ⊢
    by_cases h1 : k < k1
    · simp [mapSubscript, h1]
    · by_cases h2 : k = k1
      · simp [mapSubscript, h2]
      · simp only [mapSubscript, if_neg h1, if_neg h2, List.map_cons, List.sum_cons, ih]

theorem planSum_mapAssign (k d : Int) (f : Int → Int) (m : Floors)
    (hf : ∀ v, f v = v + d) (hk : k ∈ mapKeys m) :
    planSum (mapAssign k f m) = planSum m + d := by
  induction m with
  | nil => simp [mapKeys] at hk
  | cons e rest ih =>
    obtain ⟨k1, v⟩ := e
    unfold planSum at ih ⊢
    by_cases h1 : k = k1
    · simp only [mapAssign, if_pos h1, List.map_cons, List.sum_cons, hf]
      ring
    · have hk2 : k ∈ mapKeys rest := by
        simp only [mapKeys, List.map_cons, List.mem_cons] at hk
        rcases hk with hk | hk
        · exact absurd hk h1
        · exact hk
      simp only [mapAssign, if_neg h1, List.map_cons, List.sum_cons, ih hk2]
      ring

theorem planSum_mapIncr (k : Int) (m : Floors) : planSum (mapIncr k m) = planSum m + 1 := by
  unfold mapIncr
  rw [planSum_mapAssign k 1 _ _ (fun _ => rfl)
    ((mem_mapKeys_mapSubscript k k m).2 (Or.inl rfl)), planSum_mapSubscript]

theorem planSum_mapDecr (k : Int) (m : Floors) : planSum (mapDecr k m) = planSum m - 1 := by
  unfold mapDecr
  rw [planSum_mapAssign k (-1) _ _ (fun v => by ring)
    ((mem_mapKeys_mapSubscript k k m).2 (Or.inl rfl)), planSum_mapSubscript]
  ring

theorem conserved_ProcessEvent (event : Event) (c : Impl) :
    (ProcessEvent event c).m_Passangers + planSum (ProcessEvent event c).m_Floors =
      c.m_Passangers + planSum c.m_Floors := by
  rw [(ProcessEvent_frame event c).1, ProcessEvent_floors, planSum_mapDecr, planSum_mapIncr]
  ring

theorem conserved_PerformAction (c c1 : Impl) (h : PerformAction c = some c1) :
    c1.m_Passangers + planSum c1.m_Floors = c.m_Passangers + planSum c.m_Floors := by
  cases hf : c.m_Floors with
  | nil =>
    rw [PerformAction_empty c hf] at h
    cases h
    rw [hf]
  | cons e rest =>
    cases hd : c.m_Direction with
    | None =>
      unfold PerformAction at h
      simp only [hf, hd, List.isEmpty_cons, Bool.false_eq_true, if_false] at h
      obtain ⟨c2, h2, h3⟩ := Option.map_eq_some'.1 h
      cases h2
      rw [← h3, (afterStop_frame c).1, (afterStop_frame c).2.1, hf]
    | Up =>
      rw [PerformAction_up_cons c e rest hd hf] at h
      cases h
      rw [(afterStop_frame _).1, (afterStop_frame _).2.1]
      simp only [planSum, List.map_cons, List.sum_cons]
      ring
    | Down =>
      rw [PerformAction_down_undefined c hd (by rw [hf]; simp)] at h
      cases h

theorem conserved_applyOps (ops : List Op) (c c1 : Impl) (h : applyOps ops c = some c1) :
    c1.m_Passangers + planSum c1.m_Floors = c.m_Passangers + planSum c.m_Floors := by
  induction ops generalizing c with
  | nil =>
    simp only [applyOps, Option.some.injEq] at h
    rw [← h]
  | cons op rest ih =>
    simp only [applyOps] at h
    obtain ⟨c2, hop, hrest⟩ := Option.bind_eq_some.1 h
    rw [ih c2 hrest]
    cases op with
    | processEvent event =>
      simp only [applyOp, Option.some.injEq] at hop
      rw [← hop]
      exact conserved_ProcessEvent event c
    | performAction => exact conserved_PerformAction c c2 hop
    | idleTimer =>
      simp only [applyOp, Option.some.injEq] at hop
      rw [← hop]
      rfl
    | updatePosition now =>
      simp only [applyOp, Option.some.injEq] at hop
      rw [← hop, (UpdateCurrentPosition_frame now c).1, (UpdateCurrentPosition_frame now c).2.1]

/-- As long as every step has a defined result (no downward stop), the
passenger count plus the sum of the net deltas of the plan is 0 in every state
reached from the constructed car by `ProcessEvent`, `PerformAction`, idle-timer
and position-update steps; the passenger count is then 0 whenever the plan is
empty. -/
theorem passenger_conservation (ops : List Op) (number : Int) (timePerFloor : ℚ)
    (capacity : Int) (c : Impl)
    (h : applyOps ops (Impl.Impl number timePerFloor capacity) = some c) :
    c.m_Passangers + planSum c.m_Floors = 0 ∧
    (c.m_Floors = [] → c.m_Passangers = 0) := by
  have hc := conserved_applyOps ops _ c h
  have h0 : c.m_Passangers + planSum c.m_Floors = 0 := by
    rw [hc]
    rfl
  refine ⟨h0, fun he => ?_⟩
  rw [he] at h0
  simpa [planSum] using h0

theorem passenger_conservation_witness :
    applyOps [Op.processEvent ⟨3, 5⟩, Op.processEvent ⟨4, 5⟩, Op.performAction]
        (Impl.Impl 1 1 5) =
      some { m_Number := 1, m_TimePerFloor := 1, m_Capacity := 5, m_Passangers := 1,
             m_Position := 3, m_Direction := Direction.Up, m_Time := 0,
             m_TimeToAction := 1, m_HasToMoveDown := false,
             m_Floors := [(4, 1), (5, -2)] } ∧
    ((1 : Int) + planSum [(4, 1), (5, -2)] = 0 ∧
      (([(4, 1), (5, -2)] : Floors) = [] → (1 : Int) = 0)) :=
  ⟨by decide!,
   passenger_conservation
     [Op.processEvent ⟨3, 5⟩, Op.processEvent ⟨4, 5⟩, Op.performAction] 1 1 5
     { m_Number := 1, m_TimePerFloor := 1, m_Capacity := 5, m_Passangers := 1,
       m_Position := 3, m_Direction := Direction.Up, m_Time := 0,
       m_TimeToAction := 1, m_HasToMoveDown := false,
       m_Floors := [(4, 1), (5, -2)] } (by decide!)⟩

/-! ## The queue head -/

theorem admitFront_after_check_some (now : ℚ) (st : Loop)
    (hr : (checkCondition now st.chan st.car).1 = true)
    (hs : st.chan.m_StopFlag = false) :
    ∃ st1, admitFront { st with car := (checkCondition now st.chan st.car).2 } = some st1 := by
  obtain ⟨e, rest, he, _, _, _⟩ := checkCondition_admits now st.chan st.car hr hs
  unfold admitFront
  simp only [he]
  exact ⟨_, rfl⟩

theorem timeoutBranch_none (now : ℚ) (st : Loop) (hs : st.chan.m_StopFlag = false)
    (h : timeoutBranch now st = none) : PerformAction st.car = none := by
  cases hp : PerformAction st.car with
  | none => rfl
  | some c1 =>
    exfalso
    unfold timeoutBranch at h
    rw [hp] at h
    change (if c1.m_Floors.isEmpty = true then _ else _) = none at h
    by_cases hempty : c1.m_Floors.isEmpty = true
    · rw [if_pos hempty] at h
      obtain ⟨st2, hd⟩ := drain_returns now (st.chan.m_Events.length + 1)
        { st with car := c1 } hs (Nat.lt_succ_self _)
      rw [hd] at h
      cases h
    · rw [if_neg hempty] at h
      cases h

theorem wake_none (now : ℚ) (st : Loop) (h : wake now st = none) :
    PerformAction (checkCondition now st.chan st.car).2 = none := by
  unfold wake at h
  by_cases hret : st.returned = true
  · rw [if_pos hret] at h
    cases h
  · rw [if_neg hret] at h
    by_cases hr : (checkCondition now st.chan st.car).1 = true
    · simp only [hr, if_true] at h
      by_cases hs : st.chan.m_StopFlag = true
      · simp only [hs, Bool.not_true, Bool.false_eq_true, if_false] at h
        cases h
      · have hs2 : st.chan.m_StopFlag = false := by simpa using hs
        simp only [hs2, Bool.not_false, if_true] at h
        obtain ⟨st1, ha⟩ := admitFront_after_check_some now st hr hs2
        rw [ha] at h
        cases h
    · have hr2 : (checkCondition now st.chan st.car).1 = false := by simpa using hr
      have hs := checkCondition_false_stop now st.chan st.car hr2
      simp only [hr2, Bool.false_eq_true, if_false] at h
      by_cases hdl : now < st.deadline
      · rw [if_pos hdl] at h
        cases h
      · rw [if_neg hdl] at h
        have ht : timeoutBranch now
            { st with car := (checkCondition now st.chan st.car).2 } = none := by
          cases hx : timeoutBranch now
              { st with car := (checkCondition now st.chan st.car).2 } with
          | none => rfl
          | some st2 => rw [hx] at h; cases h
        exact timeoutBranch_none now
          { st with car := (checkCondition now st.chan st.car).2 } hs ht

/-! ## Requests move from the queue to exactly one car -/

theorem admitFront_spec (st st1 : Loop) (h : admitFront st = some st1) :
    ∃ e rest, st.chan.m_Events = e :: rest ∧ st1.chan.m_Events = rest ∧
      st1.chan.m_StopFlag = st.chan.m_StopFlag ∧
      st1.car = ProcessEvent e st.car ∧
      st1.admitted = st.admitted ++ [⟨st.car.m_Direction, st.car.m_Position, e⟩] := by
  unfold admitFront at h
  cases he : st.chan.m_Events with
  | nil => rw [he] at h; cases h
  | cons e rest =>
    rw [he] at h
    simp only [Option.some.injEq] at h
    rw [← h]
    exact ⟨e, rest, rfl, rfl, rfl, rfl, rfl⟩

theorem admitFront_moves (st st1 : Loop) (h : admitFront st = some st1) :
    ∃ new : List Admission, st1.admitted = st.admitted ++ new ∧
      st.chan.m_Events = new.map (fun a => a.event) ++ st1.chan.m_Events := by
  obtain ⟨e, rest, he, hrest, _, _, hadm⟩ := admitFront_spec st st1 h
  exact ⟨[⟨st.car.m_Direction, st.car.m_Position, e⟩], hadm, by rw [he, hrest]; rfl⟩

theorem drain_moves (now : ℚ) (fuel : Nat) (st st1 : Loop)
    (h : drain now fuel st = some st1) :
    ∃ new : List Admission, st1.admitted = st.admitted ++ new ∧
      st.chan.m_Events = new.map (fun a => a.event) ++ st1.chan.m_Events := by
  induction fuel generalizing st with
  | zero => simp [drain] at h
  | succ n ih =>
    simp only [drain] at h
    by_cases hr : (checkCondition now st.chan st.car).1 = true
    · rw [if_pos hr] at h
      obtain ⟨st2, ha, hd⟩ := Option.bind_eq_some.1 h
      obtain ⟨new1, h1, h2⟩ := admitFront_moves _ st2 ha
      obtain ⟨new2, h3, h4⟩ := ih st2 hd
      refine ⟨new1 ++ new2, ?_, ?_⟩
      · rw [h3, h1, List.append_assoc]
      · show st.chan.m_Events = _
        rw [List.map_append, List.append_assoc, ← h4]
        exact h2
    · rw [if_neg hr] at h
      simp only [Option.some.injEq] at h
      rw [← h]
      exact ⟨[], by simp, by simp⟩

theorem timeoutBranch_moves (now : ℚ) (st st1 : Loop)
    (h : timeoutBranch now st = some st1) :
    ∃ new : List Admission, st1.admitted = st.admitted ++ new ∧
      st.chan.m_Events = new.map (fun a => a.event) ++ st1.chan.m_Events := by
  unfold timeoutBranch at h
  obtain ⟨c1, _, h1⟩ := Option.bind_eq_some.1 h
  by_cases hempty : c1.m_Floors.isEmpty = true
  · rw [if_pos hempty] at h1
    obtain ⟨st2, hd, h2⟩ := Option.map_eq_some'.1 h1
    obtain ⟨new, h3, h4⟩ := drain_moves now _ { st with car := c1 } st2 hd
    refine ⟨new, ?_, ?_⟩
    · rw [← h2]
      split_ifs
      · exact h3
      · exact h3
    · rw [← h2]
      split_ifs
      · exact h4
      · exact h4
  · rw [if_neg hempty] at h1
    simp only [Option.some.injEq] at h1
    rw [← h1]
    exact ⟨[], by simp, by simp⟩

theorem wake_moves (now : ℚ) (st st1 : Loop) (h : wake now st = some st1) :
    ∃ new : List Admission, st1.admitted = st.admitted ++ new ∧
      st.chan.m_Events = new.map (fun a => a.event) ++ st1.chan.m_Events := by
  unfold wake at h
  by_cases hret : st.returned = true
  · rw [if_pos hret] at h
    simp only [Option.some.injEq] at h
    rw [← h]
    exact ⟨[], by simp, by simp⟩
  · rw [if_neg hret] at h
    by_cases hr : (checkCondition now st.chan st.car).1 = true
    · simp only [hr, if_true] at h
      by_cases hs : st.chan.m_StopFlag = true
      · simp only [hs, Bool.not_true, Bool.false_eq_true, if_false, Option.some.injEq] at h
        rw [← h]
        exact ⟨[], by simp, by simp⟩
      · have hs2 : st.chan.m_StopFlag = false := by simpa using hs
        simp only [hs2, Bool.not_false, if_true] at h
        obtain ⟨st2, ha, h2⟩ := Option.map_eq_some'.1 h
        obtain ⟨new, h3, h4⟩ := admitFront_moves _ st2 ha
        rw [← h2]
        exact ⟨new, h3, h4⟩
    · have hr2 : (checkCondition now st.chan st.car).1 = false := by simpa using hr
      simp only [hr2, Bool.false_eq_true, if_false] at h
      by_cases hdl : now < st.deadline
      · rw [if_pos hdl] at h
        simp only [Option.some.injEq] at h
        rw [← h]
        exact ⟨[], by simp, by simp⟩
      · rw [if_neg hdl] at h
        obtain ⟨st2, ht, h2⟩ := Option.map_eq_some'.1 h
        obtain ⟨new, h3, h4⟩ := timeoutBranch_moves now _ st2 ht
        rw [← h2]
        exact ⟨new, h3, h4⟩

theorem admittedEvents_set (threads : List Thread) (i : Nat) (t t1 : Thread)
    (new : List Admission) (hget : threads.get? i = some t)
    (hadm : t1.admitted = t.admitted ++ new) :
    List.Perm (admittedEvents (threads.set i t1))
      (admittedEvents threads ++ new.map (fun a => a.event)) := by
  induction threads generalizing i with
  | nil => simp at hget
  | cons t0 rest ih =>
    cases i with
    | zero =>
      simp only [List.get?_cons_zero, Option.some.injEq] at hget
      subst hget
      simp only [List.set_cons_zero, admittedEvents, hadm, List.map_append,
        List.append_assoc]
      exact List.Perm.append_left _ List.perm_append_comm
    | succ n =>
      simp only [List.get?_cons_succ] at hget
      simp only [List.set_cons_succ, admittedEvents, List.append_assoc]
      exact List.Perm.append_left _ (ih n hget)

theorem bankInv_step (i : BankInput) (b b1 : Bank) (h : bankStep i b = some b1)
    (hinv : bankInv b) : bankInv b1 := by
  unfold bankInv at hinv ⊢
  cases i with
  | push event =>
    simp only [bankStep, Option.some.injEq] at h
    rw [← h]
    show List.Perm (b.pushed ++ [event])
      (admittedEvents b.threads ++ (b.chan.m_Events ++ [event]))
    rw [← List.append_assoc]
    exact List.Perm.append_right _ hinv
  | stopAll =>
    simp only [bankStep, Option.some.injEq] at h
    rw [← h]
    exact hinv
  | wake n now =>
    simp only [bankStep] at h
    cases hget : b.threads.get? n with
    | none =>
      rw [hget] at h
      simp only [Option.some.injEq] at h
      rw [← h]
      exact hinv
    | some t =>
      rw [hget] at h
      obtain ⟨st, hw, hb⟩ := Option.map_eq_some'.1 h
      obtain ⟨new, h1, h2⟩ := wake_moves now _ st hw
      rw [← hb]
      show List.Perm b.pushed
        (admittedEvents (b.threads.set n st.thread) ++ st.chan.m_Events)
      have hq : b.chan.m_Events = new.map (fun a => a.event) ++ st.chan.m_Events := h2
      rw [hq, ← List.append_assoc] at hinv
      exact hinv.trans
        (List.Perm.append_right _ (admittedEvents_set b.threads n t st.thread new hget h1).symm)

theorem bankInv_run (inputs : List BankInput) (b b1 : Bank)
    (h : bankRun inputs b = some b1) (hinv : bankInv b) : bankInv b1 := by
  induction inputs generalizing b with
  | nil =>
    simp only [bankRun, Option.some.injEq] at h
    rw [← h]
    exact hinv
  | cons i rest ih =>
    simp only [bankRun] at h
    obtain ⟨b2, hstep, hrest⟩ := Option.bind_eq_some.1 h
    exact ih b2 hrest (bankInv_step i b b2 hstep hinv)

theorem admittedEvents_start (t0 : ℚ) (cars : List Impl) (sh : Shared) :
    admittedEvents (cars.map fun c => (Start t0 c sh).thread) = [] := by
  induction cars with
  | nil => rfl
  | cons c rest ih =>
    simp only [List.map_cons, admittedEvents, ih]
    rfl

/-! ## The update time across a stop -/

theorem afterStop_time (c : Impl) :
    (afterStop c).m_Time = c.m_Time ∧ (afterStop c).m_HasToMoveDown = c.m_HasToMoveDown := by
  unfold afterStop
  have hf := UpdateTimeToAction_frame
    (if c.m_Floors.isEmpty then { c with m_Direction := Direction.None } else c)
  refine ⟨?_, ?_⟩
  · rw [hf.2.2.2.2.2.2.2]; split_ifs <;> rfl
  · rw [hf.2.2.2.2.2.2.1]; split_ifs <;> rfl

/-- An upward stop with stops remaining leaves `m_Time` as it was, so the next
refresh adds the time elapsed since the last refresh, not since the stop. -/
theorem refresh_after_stop (c : Impl) (e : Int × Int) (rest : Floors) (now : ℚ)
    (hdir : c.m_Direction = Direction.Up) (hfl : c.m_Floors = e :: rest)
    (hrest : rest ≠ []) :
    ∃ c1, PerformAction c = some c1 ∧ c1.m_Time = c.m_Time ∧
      (UpdateCurrentPosition now c1).m_Position =
        (e.1 : ℚ) + (now - c.m_Time) / c.m_TimePerFloor := by
  refine ⟨_, PerformAction_up_cons c e rest hdir hfl, (afterStop_time _).1, ?_⟩
  have hd : (afterStop { c with m_Position := (e.1 : ℚ)
                                m_Passangers := c.m_Passangers + e.2
                                m_Floors := rest }).m_Direction = Direction.Up := by
    rw [afterStop_direction]
    cases rest with
    | nil => exact absurd rfl hrest
    | cons e2 rest2 => simp [hdir]
  unfold UpdateCurrentPosition
  rw [hd]
  simp only
  rw [(afterStop_frame _).2.2.1, (afterStop_time _).1, (afterStop_frame _).2.2.2.2]

/-! ## The claims -/

/-- C1. The capacity invariant fails on the code: a car with capacity 1 that
admits `{3, 5}` and then `{4, 6}` before its first stop carries 2 passengers
after the stop at floor 4, and a fresh car that admits `{3, 2}` carries -1
passengers after its stop at floor 2. Both runs use only requests with floors
in `1..FLOORS_NUMBER` and different floors. -/
theorem capacity_invariant_broken :
    validInputs overloadInputs = true ∧
    (run overloadInputs (Start 0 (Impl.Impl 1 1 1) ⟨[], false⟩)).map
      (fun st => (st.car.m_Passangers, st.car.m_Capacity, st.car.m_Position))
      = some (2, 1, 4) ∧
    validInputs underflowInputs = true ∧
    (run underflowInputs (Start 0 (Impl.Impl 1 1 1) ⟨[], false⟩)).map
      (fun st => (st.car.m_Passangers, st.car.m_Capacity, st.car.m_Position))
      = some (-1, 1, 2) := by
  refine ⟨by decide, by decide!, by decide, by decide!⟩

/-- C2. In every state reached from the constructed car by a sequence of
`ProcessEvent`, `PerformAction`, idle-timer and position-update steps, the
direction is `None` exactly when the travel plan `m_Floors` is empty. -/
theorem direction_none_iff_plan_empty (ops : List Op) (number : Int)
    (timePerFloor : ℚ) (capacity : Int) (c : Impl)
    (h : applyOps ops (Impl.Impl number timePerFloor capacity) = some c) :
    c.m_Direction = Direction.None ↔ c.m_Floors = [] :=
  dirInv_applyOps ops _ c h ⟨fun _ => rfl, fun _ => rfl⟩

theorem direction_none_iff_plan_empty_witness :
    applyOps [Op.processEvent ⟨3, 5⟩, Op.updatePosition 1, Op.performAction]
        (Impl.Impl 1 1 1) = some afterFirstStop ∧
      (afterFirstStop.m_Direction = Direction.None ↔ afterFirstStop.m_Floors = []) :=
  ⟨by decide!,
   direction_none_iff_plan_empty
     [Op.processEvent ⟨3, 5⟩, Op.updatePosition 1, Op.performAction] 1 1 1
     afterFirstStop (by decide!)⟩

/-- C3. A fresh car with capacity 1 and travel time 1 is idle at position 1
with no passenger; `ProcessEvent {3, 5}` sets the direction to `Up` and the
time to the next action to 2; the first `PerformAction` puts the car at
position 3 with one passenger and again 2 to the next action; the second
puts it at position 5 with no passenger, an empty plan and direction `None`. -/
theorem scenario_trace (number : Int) :
    (Impl.Impl number 1 1).m_Position = 1 ∧
    (Impl.Impl number 1 1).m_Passangers = 0 ∧
    (Impl.Impl number 1 1).m_Direction = Direction.None ∧
    (ProcessEvent ⟨3, 5⟩ (Impl.Impl number 1 1)).m_Direction = Direction.Up ∧
    (ProcessEvent ⟨3, 5⟩ (Impl.Impl number 1 1)).m_TimeToAction = 2 ∧
    ∃ c2 c3 : Impl,
      PerformAction (ProcessEvent ⟨3, 5⟩ (Impl.Impl number 1 1)) = some c2 ∧
      c2.m_Position = 3 ∧ c2.m_Passangers = 1 ∧ c2.m_TimeToAction = 2 ∧
      PerformAction c2 = some c3 ∧
      c3.m_Position = 5 ∧ c3.m_Passangers = 0 ∧ c3.m_Floors = [] ∧
      c3.m_Direction = Direction.None := by
  have h1 : ProcessEvent ⟨3, 5⟩ (Impl.Impl number 1 1) =
      { m_Number := number, m_TimePerFloor := 1, m_Capacity := 1, m_Passangers := 0,
        m_Position := 1, m_Direction := Direction.Up, m_Time := 0, m_TimeToAction := 2,
        m_HasToMoveDown := false, m_Floors := [(3, 1), (5, -1)] } := by
    norm_num [ProcessEvent, Impl.Impl, UpdateTimeToAction, mapIncr, mapDecr,
      mapSubscript, mapAssign]
  refine ⟨rfl, rfl, rfl, ?_, ?_, ?_⟩
  · rw [h1]
  · rw [h1]
  · refine ⟨{ m_Number := number, m_TimePerFloor := 1, m_Capacity := 1,
              m_Passangers := 1, m_Position := 3, m_Direction := Direction.Up,
              m_Time := 0, m_TimeToAction := 2, m_HasToMoveDown := false,
              m_Floors := [(5, -1)] },
            { m_Number := number, m_TimePerFloor := 1, m_Capacity := 1,
              m_Passangers := 0, m_Position := 5, m_Direction := Direction.None,
              m_Time := 0, m_TimeToAction := 2, m_HasToMoveDown := false,
              m_Floors := [] }, ?_, rfl, rfl, rfl, ?_, rfl, rfl, rfl, rfl⟩
    · rw [h1, PerformAction_up_cons _ (3, 1) [(5, -1)] rfl rfl]
      norm_num [afterStop, UpdateTimeToAction]
    · rw [PerformAction_up_cons _ (5, -1) [] rfl rfl]
      norm_num [afterStop, UpdateTimeToAction]

/-- C4. `CheckForPickUp` returns true exactly when the car moves up and is
below the pickup floor, or moves down and is above it, or is idle; a request
whose pickup floor equals the position of the car is accepted exactly when
the car is idle. -/
theorem CheckForPickUp_iff (c : Impl) (event : Event) :
    (CheckForPickUp c event = true ↔
      (c.m_Direction = Direction.Up ∧ c.m_Position < (event.floorFrom : ℚ)) ∨
      (c.m_Direction = Direction.Down ∧ c.m_Position > (event.floorFrom : ℚ)) ∨
      c.m_Direction = Direction.None) ∧
    (CheckForPickUp { c with m_Position := (event.floorFrom : ℚ) } event = true ↔
      c.m_Direction = Direction.None) := by
  unfold CheckForPickUp
  cases hd : c.m_Direction <;> simp [hd]

/-- C5. In every run of the control loop of a constructed car, each request
the car popped from the shared queue was taken either while idle, or while
moving up from a position not above the pickup floor, or while moving down
from a position not below it; the position is the one refreshed by the
`checkCondition` that precedes the pop. -/
theorem admission_direction_monotonic (inputs : List Input) (t0 : ℚ) (number : Int)
    (timePerFloor : ℚ) (capacity : Int) (sh : Shared) (st : Loop)
    (h : run inputs (Start t0 (Impl.Impl number timePerFloor capacity) sh) = some st) :
    ∀ a ∈ st.admitted,
      (a.direction = Direction.Up → ¬ ((a.event.floorFrom : ℚ) < a.position)) ∧
      (a.direction = Direction.Down → ¬ ((a.event.floorFrom : ℚ) > a.position)) :=
  run_good inputs _ st (fun _ ha => absurd ha (List.not_mem_nil _)) h

theorem admission_direction_monotonic_witness :
    run passingInputs (Start 0 (Impl.Impl 1 1 5) ⟨[], false⟩) = some passingState ∧
    (∀ a ∈ passingState.admitted,
      (a.direction = Direction.Up → ¬ ((a.event.floorFrom : ℚ) < a.position)) ∧
      (a.direction = Direction.Down → ¬ ((a.event.floorFrom : ℚ) > a.position))) ∧
    passingState.car.m_Direction = Direction.Up ∧
    passingState.car.m_Position > 5 ∧
    passingState.chan.m_Events = [⟨3, 6⟩] ∧
    run [Input.push ⟨3, 6⟩, Input.wake 0] (Start 0 (Impl.Impl 2 1 5) ⟨[], false⟩) =
      some idleAdmitState :=
  ⟨by decide!,
   admission_direction_monotonic passingInputs 0 1 1 5 ⟨[], false⟩ passingState
     (by decide!),
   by decide!, by decide!, by decide!, by decide!⟩

/-- C6. After `ProcessEvent` the keys of the plan are the old keys plus the
two floors of the request; the value at the pickup floor is the old one (0 if
absent) plus 1 and the value at the destination floor the old one minus 1 (both
adjustments when the two floors coincide, so the old value stays); every other
entry, the passenger count and the position are unchanged. -/
theorem ProcessEvent_plan_effect (event : Event) (c : Impl)
    (hsorted : mapSorted c.m_Floors) :
    (∀ k, k ∈ mapKeys (ProcessEvent event c).m_Floors ↔
      k ∈ mapKeys c.m_Floors ∨ k = event.floorFrom ∨ k = event.floorTo) ∧
    (∀ k, mapFind k (ProcessEvent event c).m_Floors =
      if k = event.floorFrom ∨ k = event.floorTo then
        some ((mapFind k c.m_Floors).getD 0
          + (if k = event.floorFrom then 1 else 0)
          - (if k = event.floorTo then 1 else 0))
      else mapFind k c.m_Floors) ∧
    (ProcessEvent event c).m_Passangers = c.m_Passangers ∧
    (ProcessEvent event c).m_Position = c.m_Position ∧
    mapSorted (ProcessEvent event c).m_Floors := by
  refine ⟨?_, ?_, (ProcessEvent_frame event c).1, (ProcessEvent_frame event c).2.1,
    ProcessEvent_sorted event c hsorted⟩
  · intro k
    rw [ProcessEvent_floors, mem_mapKeys_mapDecr, mem_mapKeys_mapIncr]
    tauto
  · intro k
    rw [ProcessEvent_floors,
      mapFind_mapDecr _ _ _ (mapSorted_mapIncr _ _ hsorted),
      mapFind_mapIncr _ _ _ hsorted, mapFind_mapIncr _ _ _ hsorted]
    by_cases h1 : k = event.floorFrom
    · by_cases h2 : k = event.floorTo
      · have h3 : event.floorTo = event.floorFrom := by rw [← h2, h1]
        simp [h1, h3]
      · have h3 : ¬ event.floorFrom = event.floorTo := fun h => h2 (by rw [h1, h])
        simp [h1, h3]
    · by_cases h2 : k = event.floorTo
      · have h3 : ¬ event.floorTo = event.floorFrom := fun h => h1 (by rw [h2, h])
        simp [h2, h3]
      · simp [h1, h2]

theorem ProcessEvent_plan_effect_witness :
    mapSorted (afterFirstStop).m_Floors ∧
    ((∀ k, k ∈ mapKeys (ProcessEvent ⟨5, 7⟩ afterFirstStop).m_Floors ↔
      k ∈ mapKeys afterFirstStop.m_Floors ∨ k = 5 ∨ k = 7) ∧
    (∀ k, mapFind k (ProcessEvent ⟨5, 7⟩ afterFirstStop).m_Floors =
      if k = 5 ∨ k = 7 then
        some ((mapFind k afterFirstStop.m_Floors).getD 0
          + (if k = 5 then 1 else 0) - (if k = 7 then 1 else 0))
      else mapFind k afterFirstStop.m_Floors) ∧
    (ProcessEvent ⟨5, 7⟩ afterFirstStop).m_Passangers = afterFirstStop.m_Passangers ∧
    (ProcessEvent ⟨5, 7⟩ afterFirstStop).m_Position = afterFirstStop.m_Position ∧
    mapSorted (ProcessEvent ⟨5, 7⟩ afterFirstStop).m_Floors) :=
  ⟨by decide, ProcessEvent_plan_effect ⟨5, 7⟩ afterFirstStop (by decide)⟩

/-- C7. `ProcessEvent` on an idle car sets the direction to `Up` when the
position is below the pickup floor and to `Down` otherwise (equal positions
included); on a car with direction `Up` or `Down` it keeps the direction. -/
theorem ProcessEvent_direction_commitment (event : Event) (c : Impl) :
    (ProcessEvent event c).m_Direction =
      match c.m_Direction with
      | Direction.None =>
        if c.m_Position < (event.floorFrom : ℚ) then Direction.Up else Direction.Down
      | Direction.Up => Direction.Up
      | Direction.Down => Direction.Down := by
  rw [ProcessEvent_direction]
  cases c.m_Direction <;> rfl

/-- C8. For a car moving up whose plan has minimum key `f` with delta `d`,
`PerformAction` yields a state at position `f` with `d` added to the passenger
count, in which exactly the entry `f` is gone and every other entry is as
before; the direction is `None` if the plan is then empty, otherwise it stays
`Up` and the time to the next action is the distance from `f` to the new
minimum key times the travel time per floor. -/
theorem PerformAction_moving_up (c : Impl) (f d : Int)
    (hdir : c.m_Direction = Direction.Up)
    (hsorted : mapSorted c.m_Floors)
    (hfind : mapFind f c.m_Floors = some d)
    (hmin : ∀ k ∈ mapKeys c.m_Floors, f ≤ k) :
    ∃ c1, PerformAction c = some c1 ∧
      c1.m_Position = (f : ℚ) ∧
      c1.m_Passangers = c.m_Passangers + d ∧
      c.m_Floors = (f, d) :: c1.m_Floors ∧
      (∀ k, mapFind k c1.m_Floors = if k = f then none else mapFind k c.m_Floors) ∧
      (c1.m_Floors = [] → c1.m_Direction = Direction.None) ∧
      (∀ g, g ∈ mapKeys c1.m_Floors → (∀ k ∈ mapKeys c1.m_Floors, g ≤ k) →
        c1.m_Direction = Direction.Up ∧
        c1.m_TimeToAction = ((g : ℚ) - (f : ℚ)) * c.m_TimePerFloor) := by
  cases hf : c.m_Floors with
  | nil => rw [hf] at hfind; simp [mapFind] at hfind
  | cons e rest =>
    obtain ⟨k1, v⟩ := e
    rw [hf] at hsorted hfind hmin
    have hlt := mapSorted_head_lt (k1, v) rest hsorted
    have htl := mapSorted_tail (k1, v) rest hsorted
    have hk1 : f = k1 := by
      by_contra hne
      have hle : f ≤ k1 := hmin k1 (by simp [mapKeys])
      simp only [mapFind, if_neg hne] at hfind
      have hmem : f ∈ mapKeys rest :=
        (mapFind_isSome_iff f rest).1 (by rw [hfind]; rfl)
      have := hlt f hmem
      simp only at this
      omega
    subst hk1
    have hv : v = d := by simpa [mapFind] using hfind
    subst hv
    have hnot : f ∉ mapKeys rest := fun hm => by
      have := hlt f hm
      simp only at this
      omega
    refine ⟨_, PerformAction_up_cons c (f, v) rest hdir hf, ?_, ?_, ?_, ?_, ?_, ?_⟩
    · rw [(afterStop_frame _).2.2.1]
    · rw [(afterStop_frame _).2.1]
    · rw [(afterStop_frame _).1]
    · intro k
      rw [(afterStop_frame _).1]
      by_cases hk : k = f
      · subst hk
        simp only [if_true]
        exact mapFind_eq_none_of_not_mem k rest hnot
      · simp [mapFind, hk]
    · intro hempty
      rw [(afterStop_frame _).1] at hempty
      rw [afterStop_direction]
      simp only at hempty
      simp [hempty]
    · intro g hg hgmin
      rw [(afterStop_frame _).1] at hg hgmin
      simp only at hg hgmin
      cases hr : rest with
      | nil => rw [hr] at hg; simp [mapKeys] at hg
      | cons e2 rest2 =>
        obtain ⟨k2, v2⟩ := e2
        rw [hr] at hg hgmin htl
        have hg2 : g = k2 := by
          have hle : g ≤ k2 := hgmin k2 (by simp [mapKeys])
          simp only [mapKeys, List.map_cons, List.mem_cons] at hg
          rcases hg with hg | hg
          · exact hg
          · have := mapSorted_head_lt (k2, v2) rest2 htl g hg
            simp only at this
            omega
        subst hg2
        constructor
        · rw [afterStop_direction]
          simp [hdir]
        · simp [afterStop, UpdateTimeToAction, hdir]

theorem PerformAction_moving_up_witness :
    afterAdmission.m_Direction = Direction.Up ∧
    mapSorted afterAdmission.m_Floors ∧
    mapFind 3 afterAdmission.m_Floors = some 1 ∧
    (∀ k ∈ mapKeys afterAdmission.m_Floors, 3 ≤ k) ∧
    ∃ c1, PerformAction afterAdmission = some c1 ∧
      c1.m_Position = ((3 : Int) : ℚ) ∧
      c1.m_Passangers = afterAdmission.m_Passangers + 1 ∧
      afterAdmission.m_Floors = (3, 1) :: c1.m_Floors ∧
      (∀ k, mapFind k c1.m_Floors =
        if k = 3 then none else mapFind k afterAdmission.m_Floors) ∧
      (c1.m_Floors = [] → c1.m_Direction = Direction.None) ∧
      (∀ g, g ∈ mapKeys c1.m_Floors → (∀ k ∈ mapKeys c1.m_Floors, g ≤ k) →
        c1.m_Direction = Direction.Up ∧
        c1.m_TimeToAction = ((g : ℚ) - ((3 : Int) : ℚ)) * afterAdmission.m_TimePerFloor) :=
  ⟨by decide, by decide, by decide, by decide,
   PerformAction_moving_up afterAdmission 3 1 (by decide) (by decide) (by decide) (by decide)⟩

/-- C9. On the car `descending`, reached by the run `descendInputs`, the
downward stop reads floor 3 through `rbegin()`, but the iterator handed to
`erase` is the increment of `iter.base()`, which is `end()`: the increment is
undefined, and `PerformAction` yields no state in which the entry of floor 3
has been removed. -/
theorem PerformAction_down_erase_undefined :
    (run descendInputs (Start 0 (Impl.Impl 1 1 5) ⟨[], false⟩)).map (fun st => st.car)
      = some descending ∧
    revDeref descending.m_Floors (rbeginBase descending.m_Floors) = some (3, 1) ∧
    rbeginBase descending.m_Floors = mapEnd descending.m_Floors ∧
    iterIncr descending.m_Floors (rbeginBase descending.m_Floors) = none ∧
    PerformAction descending = none := by
  refine ⟨by decide!, by decide, by decide, by decide, by decide!⟩

/-- C10. On the car `descending`, whose plan has two entries, two
`PerformAction` steps in a row do not yield a state with an empty plan: the
first one already has no defined result, and the control loop has none either
when the stop falls due at time 13/2. -/
theorem performN_down_undefined :
    descending.m_Floors.length = 2 ∧
    performN 2 descending = none ∧
    run (descendInputs ++ [Input.wake (13 / 2)])
      (Start 0 (Impl.Impl 1 1 5) ⟨[], false⟩) = none := by
  refine ⟨by decide, by decide!, by decide!⟩

/-- C12 (as stated, refuted). With the stop flag set and `{3, 5}` at the head
of the queue of an idle car with room (so the admission branch of the wake
predicate holds), the next step of the car returns from `Start` and admits
nothing: the queue and the plan are as before. With the stop flag set and a
queue head behind a car moving up (the admission branch fails), the step
returns but moves the stored position from 13/2 to 7. -/
theorem shutdown_does_not_drain :
    stoppedWithRequest.chan.m_StopFlag = true ∧
    stoppedWithRequest.car.m_Passangers < stoppedWithRequest.car.m_Capacity ∧
    CheckForPickUp stoppedWithRequest.car ⟨3, 5⟩ = true ∧
    (wake 0 stoppedWithRequest).map
        (fun st => (st.returned, st.chan.m_Events, st.car.m_Floors, st.admitted))
      = some (true, [⟨3, 5⟩], [], []) ∧
    passingStopped.chan.m_StopFlag = true ∧
    passingStopped.car.m_Position = 13 / 2 ∧
    CheckForPickUp (UpdateCurrentPosition 5 passingStopped.car) ⟨3, 6⟩ = false ∧
    (wake 5 passingStopped).map (fun st => (st.returned, st.car.m_Position))
      = some (true, 7) := by
  refine ⟨by decide, by decide, by decide, by decide!, by decide, by decide!,
    by decide!, by decide!⟩

/-- C12 (amended). When the stop flag is set, the next step of a car that is
still in its loop returns from `Start` without popping or admitting anything:
the channel, the admission log, the plan, the passenger count and the
direction are unchanged, whether or not the queue head is admissible; the car
is untouched when the queue is empty or the car is full, and otherwise only
its position and update time are refreshed by `UpdateCurrentPosition`. -/
theorem stop_flag_ends_loop (now : ℚ) (st : Loop) (hret : st.returned = false)
    (hstop : st.chan.m_StopFlag = true) :
    ∃ st1, wake now st = some st1 ∧ st1.returned = true ∧ st1.chan = st.chan ∧
      st1.admitted = st.admitted ∧
      st1.car.m_Floors = st.car.m_Floors ∧
      st1.car.m_Passangers = st.car.m_Passangers ∧
      st1.car.m_Direction = st.car.m_Direction ∧
      st1.car =
        (if st.chan.m_Events = [] ∨ st.car.m_Passangers = st.car.m_Capacity then st.car
         else UpdateCurrentPosition now st.car) := by
  have hr := checkCondition_of_stop now st.chan st.car hstop
  have h2 := checkCondition_snd now st.chan st.car
  refine ⟨{ st with car := (checkCondition now st.chan st.car).2, returned := true },
    ?_, rfl, rfl, rfl, ?_, ?_, ?_, h2⟩
  · unfold wake
    simp [hret, hr, hstop]
  · show (checkCondition now st.chan st.car).2.m_Floors = st.car.m_Floors
    rw [h2]
    split_ifs
    · rfl
    · exact (UpdateCurrentPosition_frame now st.car).1
  · show (checkCondition now st.chan st.car).2.m_Passangers = st.car.m_Passangers
    rw [h2]
    split_ifs
    · rfl
    · exact (UpdateCurrentPosition_frame now st.car).2.1
  · show (checkCondition now st.chan st.car).2.m_Direction = st.car.m_Direction
    rw [h2]
    split_ifs
    · rfl
    · exact (UpdateCurrentPosition_frame now st.car).2.2.1

theorem stop_flag_ends_loop_witness :
    stoppedWithRequest.returned = false ∧ stoppedWithRequest.chan.m_StopFlag = true ∧
    ∃ st1, wake 0 stoppedWithRequest = some st1 ∧ st1.returned = true ∧
      st1.chan = stoppedWithRequest.chan ∧
      st1.admitted = stoppedWithRequest.admitted ∧
      st1.car.m_Floors = stoppedWithRequest.car.m_Floors ∧
      st1.car.m_Passangers = stoppedWithRequest.car.m_Passangers ∧
      st1.car.m_Direction = stoppedWithRequest.car.m_Direction ∧
      st1.car =
        (if stoppedWithRequest.chan.m_Events = [] ∨
            stoppedWithRequest.car.m_Passangers = stoppedWithRequest.car.m_Capacity
         then stoppedWithRequest.car
         else UpdateCurrentPosition 0 stoppedWithRequest.car) :=
  ⟨by decide, by decide, stop_flag_ends_loop 0 stoppedWithRequest (by decide) (by decide)⟩

/-- C13. In a timeout step of a car of the loop whose action leaves the plan
empty, with no admissible request at the head of the queue and the return flag
clear, the rest of the step only arms the idle timer: position, direction
(`None`), plan (empty) and passenger count stay as the action left them (as
they were before the step when the plan was already empty), the return flag
becomes true and the time to the next action `WAIT_TIME`, which is 5. Every
`ProcessEvent` clears the return flag. -/
theorem idle_timer_armed (now : ℚ) (st : Loop) (c1 : Impl)
    (hinv : dirInv st.car)
    (hact : PerformAction st.car = some c1)
    (hempty : c1.m_Floors = [])
    (hhead : (checkCondition now st.chan c1).1 = false)
    (hpend : c1.m_HasToMoveDown = false) :
    timeoutBranch now st = some { st with car := armIdleTimer c1 } ∧
    (armIdleTimer c1).m_Position = c1.m_Position ∧
    c1.m_Direction = Direction.None ∧
    (armIdleTimer c1).m_Direction = Direction.None ∧
    (armIdleTimer c1).m_Floors = [] ∧
    (armIdleTimer c1).m_Passangers = c1.m_Passangers ∧
    (armIdleTimer c1).m_HasToMoveDown = true ∧
    (armIdleTimer c1).m_TimeToAction = WAIT_TIME ∧
    WAIT_TIME = 5 ∧
    (st.car.m_Floors = [] → c1 = st.car) ∧
    ∀ (event : Event) (c : Impl), (ProcessEvent event c).m_HasToMoveDown = false := by
  have hd : c1.m_Direction = Direction.None :=
    (dirInv_PerformAction st.car c1 hact hinv).2 hempty
  have h2 := checkCondition_idle_false now st.chan c1 hd hhead
  refine ⟨?_, rfl, hd, hd, hempty, rfl, rfl, rfl, rfl, ?_,
    fun event c => (ProcessEvent_frame event c).2.2.2.2.2⟩
  · have hdrain : drain now (st.chan.m_Events.length + 1) { st with car := c1 } =
        some { st with car := c1 } := by
      simp only [drain]
      show (if (checkCondition now st.chan c1).1 = true then _ else _) = _
      rw [hhead, h2]
      rfl
    have hidle : idleStep c1 = armIdleTimer c1 := by
      unfold idleStep
      rw [hpend]
      rfl
    have hiso : c1.m_Floors.isEmpty = true := by rw [hempty]; rfl
    unfold timeoutBranch
    rw [hact]
    show (if c1.m_Floors.isEmpty = true then _ else _) = _
    rw [if_pos hiso, hdrain]
    show some (if c1.m_Floors.isEmpty = true then _ else _) = _
    rw [if_pos hiso, hidle]
  · intro h0
    rw [PerformAction_empty st.car h0] at hact
    cases hact
    rfl

theorem idle_timer_armed_witness :
    dirInv lastStopDue.car ∧
    PerformAction lastStopDue.car = some arrivedAtFive ∧
    arrivedAtFive.m_Floors = [] ∧
    (checkCondition 4 lastStopDue.chan arrivedAtFive).1 = false ∧
    arrivedAtFive.m_HasToMoveDown = false ∧
    (timeoutBranch 4 lastStopDue = some { lastStopDue with car := armIdleTimer arrivedAtFive } ∧
    (armIdleTimer arrivedAtFive).m_Position = arrivedAtFive.m_Position ∧
    arrivedAtFive.m_Direction = Direction.None ∧
    (armIdleTimer arrivedAtFive).m_Direction = Direction.None ∧
    (armIdleTimer arrivedAtFive).m_Floors = [] ∧
    (armIdleTimer arrivedAtFive).m_Passangers = arrivedAtFive.m_Passangers ∧
    (armIdleTimer arrivedAtFive).m_HasToMoveDown = true ∧
    (armIdleTimer arrivedAtFive).m_TimeToAction = WAIT_TIME ∧
    WAIT_TIME = 5 ∧
    (lastStopDue.car.m_Floors = [] → arrivedAtFive = lastStopDue.car) ∧
    ∀ (event : Event) (c : Impl), (ProcessEvent event c).m_HasToMoveDown = false) :=
  ⟨by decide, by decide!, by decide, by decide, by decide,
   idle_timer_armed 4 lastStopDue arrivedAtFive (by decide) (by decide!) (by decide)
     (by decide) (by decide)⟩

/-- C15. `StopAll` after `StopAll` leaves the channel as one `StopAll` does:
the stop flag is true and the queue is the one before the calls. -/
theorem StopAll_idempotent (sh : Shared) :
    StopAll (StopAll sh) = StopAll sh ∧
    (StopAll sh).m_StopFlag = true ∧
    (StopAll sh).m_Events = sh.m_Events ∧
    (StopAll (StopAll sh)).m_Events = sh.m_Events :=
  ⟨rfl, rfl, rfl, rfl⟩

/-- C11. A fresh car parked at floor 1 and a car left idle at floor 5 (no
passenger, empty plan, empty queue, no stop signal) both admit the synthetic
request `{1, 0}` when the idle timer has run out: the plan then holds floors 1
and 0 and the direction is `Down`; the stop that follows (at once for the car
at floor 1, after 4 time units for the car at floor 5) is the downward stop,
which has no defined result, so neither run reaches a state parked at
position 1 with an empty plan. -/
theorem return_to_lobby_undefined :
    (run lobbyInputs.dropLast (Start 0 (Impl.Impl 1 1 5) ⟨[], false⟩)).map
        (fun st => (st.car.m_Position, st.car.m_Direction, st.car.m_Floors))
      = some (1, Direction.None, []) ∧
    (run lobbyInputs.dropLast (Start 0 (Impl.Impl 1 1 5) ⟨[], false⟩)).map
        (fun st => (st.car.m_Passangers, st.car.m_HasToMoveDown, st.deadline))
      = some (0, true, 5) ∧
    (run lobbyInputs (Start 0 (Impl.Impl 1 1 5) ⟨[], false⟩)).map
        (fun st => (st.car.m_Position, st.car.m_Direction, st.car.m_Floors,
          st.car.m_TimeToAction))
      = some (1, Direction.Down, [(0, -1), (1, 1)], 0) ∧
    run (lobbyInputs ++ [Input.wake 5]) (Start 0 (Impl.Impl 1 1 5) ⟨[], false⟩) = none ∧
    (run lobbyFromFiveInputs.dropLast (Start 0 (Impl.Impl 1 1 5) ⟨[], false⟩)).map
        (fun st => (st.car.m_Position, st.car.m_Direction, st.car.m_Floors))
      = some (5, Direction.None, []) ∧
    (run lobbyFromFiveInputs.dropLast (Start 0 (Impl.Impl 1 1 5) ⟨[], false⟩)).map
        (fun st => (st.car.m_Passangers, st.car.m_HasToMoveDown, st.deadline))
      = some (0, true, 9) ∧
    (run lobbyFromFiveInputs (Start 0 (Impl.Impl 1 1 5) ⟨[], false⟩)).map
        (fun st => (st.car.m_Position, st.car.m_Direction, st.car.m_Floors,
          st.car.m_TimeToAction))
      = some (5, Direction.Down, [(0, -1), (1, 1)], 4) ∧
    run (lobbyFromFiveInputs ++ [Input.wake 13])
      (Start 0 (Impl.Impl 1 1 5) ⟨[], false⟩) = none := by
  refine ⟨by decide!, by decide!, by decide!, by decide!, by decide!, by decide!,
    by decide!, by decide!⟩

/-- C16. In the run `stopInputs` the car admits `{2, 8}` at time 0, its stop at
floor 2 falls due at time 1, and after the stop the car is at position 2,
moving up, with the update time still 0. The refresh at time 9/2 then yields
position 13/2, which is 2 + (9/2 - 0) / 1, and not 2 + (9/2 - 1) / 1 = 11/2. -/
theorem refreshed_position_overshoots :
    (run (stopInputs.take 3) (Start 0 (Impl.Impl 1 1 5) ⟨[], false⟩)).map
        (fun st => (st.car.m_Position, st.car.m_Floors, st.deadline))
      = some (1, [(2, 1), (8, -1)], 1) ∧
    (run stopInputs (Start 0 (Impl.Impl 1 1 5) ⟨[], false⟩)).map
        (fun st => (st.car.m_Position, st.car.m_Direction, st.car.m_Floors))
      = some (2, Direction.Up, [(8, -1)]) ∧
    (run stopInputs (Start 0 (Impl.Impl 1 1 5) ⟨[], false⟩)).map
        (fun st => (st.car.m_Time, st.car.m_TimePerFloor))
      = some (0, 1) ∧
    (run stopInputs (Start 0 (Impl.Impl 1 1 5) ⟨[], false⟩)).map
        (fun st => (UpdateCurrentPosition (9 / 2) st.car).m_Position)
      = some (13 / 2) ∧
    (run passingInputs (Start 0 (Impl.Impl 1 1 5) ⟨[], false⟩)).map
        (fun st => st.car.m_Position)
      = some (13 / 2) ∧
    (2 : ℚ) + (9 / 2 - 1) / 1 = 11 / 2 ∧
    (13 / 2 : ℚ) ≠ 11 / 2 := by
  refine ⟨by decide!, by decide!, by decide!, by decide!, by decide!, by norm_num,
    by norm_num⟩

/-- C19. A fresh car parked at floor 1 that admits `{1, 4}` takes direction
`Down` and computes the time to its next action as -3; a car left idle at
floor 5 that admits `{3, 7}` takes direction `Down` and computes -2: in both
the stop `UpdateTimeToAction` aims at (the maximum key of the plan) lies above
the car. Both runs use only requests with floors in `1..FLOORS_NUMBER` and
different floors. -/
theorem wait_duration_negative :
    validInputs sameFloorInputs = true ∧
    (run sameFloorInputs (Start 0 (Impl.Impl 1 1 5) ⟨[], false⟩)).map
        (fun st => (st.car.m_Direction, st.car.m_Position, st.car.m_Floors,
          st.car.m_TimeToAction, decide (st.car.m_TimeToAction < 0)))
      = some (Direction.Down, 1, [(1, 1), (4, -1)], -3, true) ∧
    validInputs behindInputs = true ∧
    (run behindInputs (Start 0 (Impl.Impl 1 1 5) ⟨[], false⟩)).map
        (fun st => (st.car.m_Direction, st.car.m_Position, st.car.m_Floors,
          st.car.m_TimeToAction, decide (st.car.m_TimeToAction < 0)))
      = some (Direction.Down, 5, [(3, 1), (7, -1)], -2, true) := by
  refine ⟨by decide, by decide!, by decide, by decide!⟩

/-- C17. Passenger conservation is lost at the first downward stop. A fresh
car to which nothing is pushed admits the synthetic request `{1, 0}` when the
idle timer has run out at time 5: the passenger count is 0, the plan is
`{0: -1, 1: +1}` (sum 0) and the direction is `Down`. The stop that follows
reads floor 1 through `rbegin()` and hands `erase` the increment of `end()`:
`PerformAction` has no defined result, so the run reaches no state in which
the passenger count and the plan still add up to 0. The same holds for the car
`descending`, which carries 0 passengers with plan `{2: -1, 3: +1}`. -/
theorem conservation_lost_on_descent :
    (run lobbyInputs (Start 0 (Impl.Impl 1 1 5) ⟨[], false⟩)).map
        (fun st => (st.car.m_Passangers, st.car.m_Floors, st.car.m_Direction))
      = some (0, [(0, -1), (1, 1)], Direction.Down) ∧
    (0 : Int) + planSum [(0, -1), (1, 1)] = 0 ∧
    (run lobbyInputs (Start 0 (Impl.Impl 1 1 5) ⟨[], false⟩)).map
        (fun st => revDeref st.car.m_Floors (rbeginBase st.car.m_Floors))
      = some (some (1, 1)) ∧
    (run lobbyInputs (Start 0 (Impl.Impl 1 1 5) ⟨[], false⟩)).map
        (fun st => PerformAction st.car)
      = some none ∧
    run (lobbyInputs ++ [Input.wake 5]) (Start 0 (Impl.Impl 1 1 5) ⟨[], false⟩) = none ∧
    descending.m_Passangers + planSum descending.m_Floors = 0 ∧
    PerformAction descending = none := by
  refine ⟨by decide!, by decide, by decide!, by decide!, by decide!, by decide,
    by decide!⟩

/-- C18. In a step of the control loop the queue head is read and popped only
when the queue is non-empty. In the woken branch (predicate true, stop flag
clear) the pop has a request to take. The timeout branch is entered only with
the stop flag clear, and with the flag clear the drain loop ends with a state:
each of its iterations finds a request, since the condition cannot hold
through the stop flag. Hence a step has no defined result only when its
`PerformAction` has none. -/
theorem queue_head_read_only_when_present (now : ℚ) (st : Loop) :
    ((checkCondition now st.chan st.car).1 = true → st.chan.m_StopFlag = false →
      st.chan.m_Events ≠ [] ∧
      ∃ st1, admitFront { st with car := (checkCondition now st.chan st.car).2 } = some st1) ∧
    ((checkCondition now st.chan st.car).1 = false → st.chan.m_StopFlag = false) ∧
    (st.chan.m_StopFlag = false → ∀ fuel, st.chan.m_Events.length < fuel →
      ∃ st1, drain now fuel st = some st1) ∧
    (wake now st = none →
      PerformAction (checkCondition now st.chan st.car).2 = none) := by
  refine ⟨fun hr hs => ⟨?_, admitFront_after_check_some now st hr hs⟩,
    checkCondition_false_stop now st.chan st.car,
    fun hs fuel hfuel => drain_returns now fuel st hs hfuel,
    wake_none now st⟩
  obtain ⟨e, rest, he, _, _, _⟩ := checkCondition_admits now st.chan st.car hr hs
  rw [he]
  simp

theorem queue_head_read_only_when_present_witness :
    (checkCondition 0 requestWaiting.chan requestWaiting.car).1 = true ∧
    requestWaiting.chan.m_StopFlag = false ∧
    (requestWaiting.chan.m_Events ≠ [] ∧
      ∃ st1, admitFront
        { requestWaiting with
          car := (checkCondition 0 requestWaiting.chan requestWaiting.car).2 } = some st1) :=
  ⟨by decide!, by decide,
   (queue_head_read_only_when_present 0 requestWaiting).1 (by decide!) (by decide)⟩

/-- C14. For any cars started on one channel and any interleaving of pushes,
`StopAll` calls and wake-ups of the cars, the requests given to the channel
are, counted with multiplicity, the requests still in the queue together with
the requests admitted by the cars: each request is in the queue or in the
admission log of exactly one car, none twice and none lost. Every pop is the
pop of the queue head by the car that calls `ProcessEvent` on that request. -/
theorem exactly_once_consumption (inputs : List BankInput) (t0 : ℚ)
    (cars : List Impl) (sh : Shared) (b : Bank)
    (h : bankRun inputs (bankStart t0 cars sh) = some b) :
    List.Perm b.pushed (admittedEvents b.threads ++ b.chan.m_Events) ∧
    (∀ e, b.pushed.count e =
      (admittedEvents b.threads).count e + b.chan.m_Events.count e) ∧
    (∀ st st1, admitFront st = some st1 →
      ∃ e rest, st.chan.m_Events = e :: rest ∧ st1.chan.m_Events = rest ∧
        st1.car = ProcessEvent e st.car ∧
        st1.admitted = st.admitted ++ [⟨st.car.m_Direction, st.car.m_Position, e⟩]) := by
  have hstart : bankInv (bankStart t0 cars sh) := by
    unfold bankInv bankStart
    simp only [admittedEvents_start, List.nil_append]
    exact List.Perm.refl _
  have hinv := bankInv_run inputs _ b h hstart
  refine ⟨hinv, fun e => ?_, fun st st1 ha => ?_⟩
  · rw [hinv.count_eq e, List.count_append]
  · obtain ⟨e, rest, h1, h2, _, h3, h4⟩ := admitFront_spec st st1 ha
    exact ⟨e, rest, h1, h2, h3, h4⟩

theorem exactly_once_consumption_witness :
    bankRun twoCarsInputs (bankStart 0 [Impl.Impl 1 1 5, Impl.Impl 2 2 5] ⟨[], false⟩) =
      some twoCarsState ∧
    (List.Perm twoCarsState.pushed
      (admittedEvents twoCarsState.threads ++ twoCarsState.chan.m_Events) ∧
    (∀ e, twoCarsState.pushed.count e =
      (admittedEvents twoCarsState.threads).count e +
        twoCarsState.chan.m_Events.count e) ∧
    (∀ st st1, admitFront st = some st1 →
      ∃ e rest, st.chan.m_Events = e :: rest ∧ st1.chan.m_Events = rest ∧
        st1.car = ProcessEvent e st.car ∧
        st1.admitted = st.admitted ++ [⟨st.car.m_Direction, st.car.m_Position, e⟩])) ∧
    admittedEvents twoCarsState.threads = [⟨1, 3⟩, ⟨1, 4⟩] :=
  ⟨by decide!,
   exactly_once_consumption twoCarsInputs 0 [Impl.Impl 1 1 5, Impl.Impl 2 2 5]
     ⟨[], false⟩ twoCarsState (by decide!),
   by decide⟩

end Elevator
